import Mathlib

/-!
Verification development for the Quadrillion puzzle solver.

The repository consists of a generic backtracking CSP solver (`csp.py`),
a geometric shape model (`dots_set.py`), a puzzle-specific constraint
adapter (`quadrillion_csp.py`) and the board state machine
(`quadrillion.py`).  This file gives a shallow embedding of those
components and proves properties of the embedding.

Modelling conventions:
* a cell ("dot") is a pair of integers `(row, column)`;
* Python `set`/`frozenset` of dots becomes `Finset (ℤ × ℤ)`;
* Python `dict` becomes an association list `List (key × value)` whose
  key list is kept duplicate-free; insertion is modelled by appending
  (Python dicts preserve insertion order) and deletion by filtering;
* Python integer `%` agrees with `Int.emod` for positive moduli;
* a function that can raise returns `Option`/`Except` instead.
-/

set_option synthInstance.maxSize 1024

set_option maxHeartbeats 1000000

/-- A board cell `(row, column)`, Python's `(y, x)` tuples. -/
abbrev Cell : Type := ℤ × ℤ

/-- A set of cells, Python's `set`/`frozenset` of dots. -/
abbrev Dots : Type := Finset Cell

/-- Key list of an association list (the keys of a Python dict). -/
def keysOf {V β : Type} (A : List (V × β)) : List V :=
  A.map Prod.fst

/-- Union of all values of an assignment map: the cells committed by the
assignments, `quadrillion_csp.py`'s `_current_assignments_dots`. -/
def unionDots {V : Type} : List (V × Dots) → Dots
  | [] => ∅
  | e :: rest => e.2 ∪ unionDots rest

/-- Lookup in an association list with a default, Python's `dict[k]`
(the default is never reached when the key is present). -/
def alookupD {V β : Type} [DecidableEq V] (A : List (V × β)) (v : V) (dflt : β) : β :=
  match A.find? (fun e => decide (e.1 = v)) with
  | some e => e.2
  | none => dflt

/-- The values of an assignment map are pairwise disjoint cell sets. -/
def PDisj {V : Type} (A : List (V × Dots)) : Prop :=
  A.Pairwise (fun e f => Disjoint e.2 f.2)

/-- Smallest first coordinate of a set of cells (`min(h for h, w in dots)`;
defaults to `0` on the empty set, on which Python `min` raises). -/
def minFst (s : Finset Cell) : ℤ :=
  ((s.image Prod.fst).min).untop' 0

/-- Largest first coordinate of a set of cells (`max(h for h, w in dots)`). -/
def maxFst (s : Finset Cell) : ℤ :=
  ((s.image Prod.fst).max).unbot' 0

/-- Smallest second coordinate of a set of cells (`min(w for h, w in dots)`). -/
def minSnd (s : Finset Cell) : ℤ :=
  ((s.image Prod.snd).min).untop' 0

/-- Largest second coordinate of a set of cells (`max(w for h, w in dots)`). -/
def maxSnd (s : Finset Cell) : ℤ :=
  ((s.image Prod.snd).max).unbot' 0

/-- The anchor `(min row, min column)` of a set of cells, used by
`DotsSet.set_dots`. -/
def minLoc (s : Finset Cell) : Cell :=
  (minFst s, minSnd s)

/-- A placement, `dots_set.py`'s `Config` namedtuple:
flip count, clockwise rotation count and translation offset. -/
structure Config where
  flips : ℤ
  rotations : ℤ
  location : Cell
  deriving DecidableEq

/-- A shape, identified by its canonical (untransformed) cell pattern:
`DotsSet._initial_dots_set`.  Equality of shapes is equality of the
canonical pattern, exactly as `DotsSet.__eq__`/`__hash__`. -/
structure DotsSet where
  initial : Finset Cell
  deriving DecidableEq

/-- `DotsSet._flipped_vertically`: reflect rows inside the bounding box. -/
def flippedVertically (height : ℤ) (dots : Finset Cell) : Finset Cell :=
  dots.image fun d => (height - 1 - d.1, d.2)

/-- `DotsSet._rotated_90_degrees_clockwise`. -/
def rotated90Clockwise (height : ℤ) (dots : Finset Cell) : Finset Cell :=
  dots.image fun d => (d.2, height - 1 - d.1)

/-- `DotsSet._rotated_180_degrees`. -/
def rotated180 (height width : ℤ) (dots : Finset Cell) : Finset Cell :=
  dots.image fun d => (height - 1 - d.1, width - 1 - d.2)

/-- `DotsSet._rotated_90_degrees_counterclockwise`. -/
def rotated90Counterclockwise (width : ℤ) (dots : Finset Cell) : Finset Cell :=
  dots.image fun d => (width - 1 - d.2, d.1)

/-- `DotsSet._moved`: translate by a displacement `(dy, dx)`. -/
def movedDots (dots : Finset Cell) (displacement : Cell) : Finset Cell :=
  dots.image fun d => (d.1 + displacement.1, d.2 + displacement.2)

/-- `DotsSet._height`: one more than the largest row of the canonical
pattern. -/
def DotsSet.height (S : DotsSet) : ℤ :=
  maxFst S.initial + 1

/-- `DotsSet._width`: one more than the largest column of the canonical
pattern. -/
def DotsSet.width (S : DotsSet) : ℤ :=
  maxSnd S.initial + 1

/-- `DotsSet._initial_dots_flipped`: the canonical pattern, flipped
vertically when the flip count is odd (`if times % 2`). -/
def DotsSet.initialDotsFlipped (S : DotsSet) (times : ℤ) : Finset Cell :=
  if times % 2 ≠ 0 then flippedVertically S.height S.initial else S.initial

/-- `DotsSet._rotated_clockwise`: rotate by `times % 4` quarter turns,
using the shape's bounding-box height and width. -/
def DotsSet.rotatedClockwise (S : DotsSet) (dots : Finset Cell) (times : ℤ) : Finset Cell :=
  if times % 4 = 0 then dots
  else if times % 4 = 1 then rotated90Clockwise S.height dots
  else if times % 4 = 2 then rotated180 S.height S.width dots
  else rotated90Counterclockwise S.width dots

/-- `DotsSet.configured`: apply flip, then rotation, then translation. -/
def DotsSet.configured (S : DotsSet) (config : Config) : Finset Cell :=
  movedDots (S.rotatedClockwise (S.initialDotsFlipped config.flips) config.rotations)
    config.location

/-- The eight flip-rotation combinations enumerated by
`get_unique_configs_at` (`for flip in range(2): for rotation in range(4)`),
in iteration order. -/
def allFlipRotations : List (ℤ × ℤ) :=
  [(0, 0), (0, 1), (0, 2), (0, 3), (1, 0), (1, 1), (1, 2), (1, 3)]

/-- One deduplication step of `get_unique_configs_at`'s enumeration:
keep a flip-rotation pair only when its resulting pattern at the origin
is new.  The state is the pair (patterns seen, configs kept). -/
def uniqueConfigsStep (S : DotsSet) (st : List (Finset Cell) × List Config) (fr : ℤ × ℤ) :
    List (Finset Cell) × List Config :=
  let ds := S.configured ⟨fr.1, fr.2, (0, 0)⟩
  if ds ∈ st.1 then st else (st.1 ++ [ds], st.2 ++ [⟨fr.1, fr.2, (0, 0)⟩])

/-- The memoized `unique_configs` attribute: the flip-rotation
combinations at the origin whose patterns are pairwise distinct. -/
def DotsSet.uniqueConfigs (S : DotsSet) : List Config :=
  (allFlipRotations.foldl (uniqueConfigsStep S) ([], [])).2

/-- `DotsSet.get_unique_configs_at`: the unique configs, re-anchored to
the requested location. -/
def DotsSet.getUniqueConfigsAt (S : DotsSet) (location : Cell) : List Config :=
  S.uniqueConfigs.map fun c => { c with location := location }

/-- The normalization performed by the `config` setter:
`flips % 2` and `rotations % 4`. -/
def normalizeConfig (c : Config) : Config :=
  { c with flips := c.flips % 2, rotations := c.rotations % 4 }

/-- `DotsSet.set_dots`: reverse-map a cell set to a placement by linear
search over the unique configs anchored at the cell set's minimum
`(row, column)`.  `none` models the `ValueError` raised when no config
reproduces the input. -/
def DotsSet.setDots (S : DotsSet) (dots : Finset Cell) : Option Config :=
  (S.getUniqueConfigsAt (minLoc dots)).find? fun c => decide (S.configured c = dots)

/-- The occupied cells after the `config` setter stores a config:
the pattern configured at the normalized config. -/
def DotsSet.dotsAfterSet (S : DotsSet) (c : Config) : Finset Cell :=
  S.configured (normalizeConfig c)

/-- Lexicographic order on cells, used only to enumerate a Python set
deterministically (Python's own set iteration order is arbitrary and
never affects the computed sets). -/
def cellLe (a b : Cell) : Prop :=
  a.1 < b.1 ∨ (a.1 = b.1 ∧ a.2 ≤ b.2)

instance : DecidableRel cellLe := fun a b => by
  unfold cellLe; infer_instance

instance : IsTrans Cell cellLe :=
  ⟨by intro a b c hab hbc; unfold cellLe at *; omega⟩

instance : IsAntisymm Cell cellLe :=
  ⟨by
    intro a b hab hba
    unfold cellLe at *
    have h1 : a.1 = b.1 ∧ a.2 = b.2 := by omega
    exact Prod.ext h1.1 h1.2⟩

instance : IsTotal Cell cellLe :=
  ⟨by intro a b; unfold cellLe; omega⟩

/-- Deterministic enumeration of a finite set of cells (insertion sort
by the lexicographic order; well defined on the underlying multiset
because sorted permutations are equal). -/
def cellList (s : Finset Cell) : List Cell :=
  Quotient.lift (fun l : List Cell => l.insertionSort cellLe)
    (fun l1 l2 h => List.eq_of_perm_of_sorted
      (((l1.perm_insertionSort cellLe).trans h).trans (l2.perm_insertionSort cellLe).symm)
      (List.sorted_insertionSort cellLe l1) (List.sorted_insertionSort cellLe l2))
    s.val

/-- A constraint satisfaction problem, the capability set of `csp.py`'s
abstract `CSP` class.  `register` models `register_current_assignments`
(it returns the assignment map after inference, or `none` when inference
proves unsatisfiability) and `consistent` models
`is_consistent_assignment` (the assignments passed in are the registered
ones the Python object stores between the two calls). -/
structure CSPProb (V α : Type) where
  vars : List V
  doms : List (V × List α)
  register : List (V × α) → List (V × List α) → Option (List (V × α))
  consistent : List (V × α) → V × α → Bool

/-- Python's truthiness of a search result: `None` and the empty dict
are falsy (`if solution:`). -/
def truthy {V α : Type} (res : Option (List (V × α))) : Bool :=
  match res with
  | some A => !A.isEmpty
  | none => false

/-- The undo step of `back_tracking_search`: delete every key of the
assignment map that was not present at call entry
(`for new_var in set(assignments.keys()) - old_vars: del assignments[new_var]`). -/
def undoKeys {V α : Type} [DecidableEq V] (olds : List V) (A : List (V × α)) : List (V × α) :=
  A.filter fun e => decide (e.1 ∈ olds)

/-- `CSPSolver.forward_check`: register the assignments (performing
inference), then filter every still-unassigned variable's domain by
`consistent`; fail when inference fails or some filtered domain becomes
empty.  Returns the new domains (or `none`) together with the
assignment map after inference. -/
def forwardCheck {V α : Type} [DecidableEq V] (p : CSPProb V α) (A : List (V × α))
    (D : List (V × List α)) : Option (List (V × List α)) × List (V × α) :=
  match p.register A D with
  | none => (none, A)
  | some A2 =>
    let D2 := (D.filter fun e => !decide (e.1 ∈ keysOf A2)).map
      fun e => (e.1, e.2.filter fun x => p.consistent A2 (e.1, x))
    if D2.any fun e => e.2.isEmpty then (none, A2) else (some D2, A2)

/-- First entry with the fewest domain values, Python's
`min(..., key=lambda var: len(domains[var]))` (ties keep the earlier
entry). -/
def pickMinEntry {V α : Type} : List (V × List α) → Option (V × List α)
  | [] => none
  | e :: rest =>
    match pickMinEntry rest with
    | none => some e
    | some b => if b.2.length < e.2.length then some b else some e

/-- `CSPSolver.select_unassigned_variable`: minimum-remaining-values
choice among the domain keys not yet assigned. -/
def selectUnassignedVariable {V α : Type} [DecidableEq V] (A : List (V × α))
    (D : List (V × List α)) : Option V :=
  (pickMinEntry (D.filter fun e => !decide (e.1 ∈ keysOf A))).map Prod.fst

/-- Python's `domains[var]` (empty when the key is absent, which the
solver never does). -/
def domList {V α : Type} [DecidableEq V] (D : List (V × List α)) (v : V) : List α :=
  alookupD D v []

/-- The candidate loop of `back_tracking_search` (`for val in
domains[var]:`): tentatively assign, forward-check, recurse through
`bt`, and on failure undo the keys added by this call before trying the
next candidate. -/
def tryVals {V α : Type} [DecidableEq V] (p : CSPProb V α)
    (bt : List (V × α) → Option (List (V × List α)) → Option (List (V × α)) × List (V × α))
    (olds : List V) (var : V) :
    List α → List (V × α) → List (V × List α) → Option (List (V × α)) × List (V × α)
  | [], A, _ => (none, A)
  | val :: rest, A, D =>
    let fc := forwardCheck p (A ++ [(var, val)]) D
    let res := bt fc.2 fc.1
    if truthy res.1 then res
    else tryVals p bt olds var rest (undoKeys olds res.2) D

/-- `CSPSolver.back_tracking_search`.  The extra fuel argument bounds
the recursion depth (each recursive call strictly shrinks the domain
map, so `|domains| + 1` fuel is enough at top level); together with the
result the function returns the final state of the mutated assignment
map.  `none` in the domain position models Python's `None` domains, and
the empty-dict test `elif not domains` covers both.  The body of one
recursion level is factored into `backTrackingStep`, parameterized by
the recursive call. -/
def backTrackingStep {V α : Type} [DecidableEq V] (p : CSPProb V α)
    (bt : List (V × α) → Option (List (V × List α)) → Option (List (V × α)) × List (V × α))
    (A : List (V × α)) (Dopt : Option (List (V × List α))) :
    Option (List (V × α)) × List (V × α) :=
  if A.length = p.vars.length then (some A, A)
  else
    match Dopt with
    | none => (none, A)
    | some D =>
      if D.isEmpty then (none, A)
      else
        match selectUnassignedVariable A D with
        | none => (none, A)
        | some var =>
          tryVals p bt (keysOf A) var (domList D var) A D

/-- `CSPSolver.back_tracking_search`: one `backTrackingStep` per fuel
unit, starting from the assignments and domains passed in. -/
def backTrackingSearch {V α : Type} [DecidableEq V] (p : CSPProb V α) :
    Nat → List (V × α) → Option (List (V × List α)) → Option (List (V × α)) × List (V × α)
  | 0, A, _ => (none, A)
  | fuel + 1, A, Dopt => backTrackingStep p (backTrackingSearch p fuel) A Dopt

/-- `CSPSolver.__call__`: fail when some variable's initial domain is
empty, otherwise run the backtracking search from the empty assignment. -/
def cspSolverCall {V α : Type} [DecidableEq V] (p : CSPProb V α) : Option (List (V × α)) :=
  if p.doms.any fun e => e.2.isEmpty then none
  else (backTrackingSearch p (p.doms.length + 1) [] (some p.doms)).1

/-- The four horizontal and vertical neighbours of a cell, from
`connected_dots_sets` in `dots_set.py`. -/
def neighborCells (d : Cell) : Finset Cell :=
  {(d.1 + 1, d.2), (d.1 - 1, d.2), (d.1, d.2 + 1), (d.1, d.2 - 1)}

/-- The breadth-first traversal `connected_dots_set_at`: pop a cell,
add its unvisited neighbours inside `s` to the component and the queue.
Each cell of `s` is enqueued at most once, so `s.card` pops exhaust the
queue; the fuel only makes the recursion structural. -/
def connectedDotsSetAt (s : Finset Cell) : Nat → List Cell → Finset Cell → Finset Cell
  | 0, _, comp => comp
  | _ + 1, [], comp => comp
  | fuel + 1, d :: queue, comp =>
    let succs := (s ∩ neighborCells d) \ comp
    connectedDotsSetAt s fuel (queue ++ cellList succs) (comp ∪ succs)

/-- The 4-connected component of `s` containing `d`. -/
def connectedComponentAt (s : Finset Cell) (d : Cell) : Finset Cell :=
  connectedDotsSetAt s s.card [d] {d}

/-- `connected_dots_sets`: the 4-connected components of a cell set, in
first-seen order (one component per still-unseen cell). -/
def connectedDotsSets (s : Finset Cell) : List (Finset Cell) :=
  ((cellList s).foldl
    (fun (st : List (Finset Cell) × Finset Cell) d =>
      if d ∈ st.2 then st
      else (st.1 ++ [connectedComponentAt s d], st.2 ∪ connectedComponentAt s d))
    ([], ∅)).1

/-- `QuadrillionCSPAdapter._is_valid_nr_empty_connected_dots`: the
unit-size divisibility rule on the total empty count `n` and one
component's count `k`. -/
def isValidNrEmptyConnectedDots (n k : ℤ) : Bool :=
  (decide (n % 5 = 0) && decide (k % 5 = 0))
  || (decide ((n - 4) % 5 = 0) && decide (k % 5 % 4 = 0))
  || (decide ((n - 3) % 5 = 0) && decide (k % 5 % 3 = 0))
  || (decide ((n - 7) % 5 = 0)
      && (decide (k % 5 % 4 % 3 = 0) || (decide (0 ≤ k - 7) && decide ((k - 7) % 5 = 0))))

/-- `QuadrillionCSPAdapter._is_valid_empty_dots`: check every
4-connected component of the empty cells against the divisibility rule;
on success return the cached list of small components (at most 5 cells,
in scan order), on failure return `none` (Python returns `False`,
having stored only part of the small-component list, which no later
code reads). -/
def isValidEmptyDots (emptyDots : Finset Cell) : Option (List (Finset Cell)) :=
  let comps := connectedDotsSets emptyDots
  if comps.all fun c => isValidNrEmptyConnectedDots (emptyDots.card : ℤ) (c.card : ℤ)
  then some (comps.filter fun c => decide (c.card ≤ 5))
  else none

/-- The inner search of `_is_small_empty_dots_in_domain`'s loop: the
first domain entry whose variable is neither assigned nor already
matched and whose domain contains the target component. -/
def findSmallVar {V : Type} [DecidableEq V] (assignedKeys foundKeys : List V)
    (D : List (V × List Dots)) (target : Dots) : Option V :=
  ((D.filter fun e => !decide (e.1 ∈ assignedKeys) && !decide (e.1 ∈ foundKeys)).find?
    fun e => decide (target ∈ e.2)).map Prod.fst

/-- The greedy matching loop of `_is_small_empty_dots_in_domain`: for
each small component in order, record the first matching free variable
(if any) in `found`. -/
def greedyMatch {V : Type} [DecidableEq V] (assignedKeys : List V)
    (D : List (V × List Dots)) : List (Finset Cell) → List (V × Dots) → List (V × Dots)
  | [], found => found
  | c :: rest, found =>
    match findSmallVar assignedKeys (keysOf found) D c with
    | some v => greedyMatch assignedKeys D rest (found ++ [(v, c)])
    | none => greedyMatch assignedKeys D rest found

/-- `QuadrillionCSPAdapter._is_small_empty_dots_in_domain`: every small
component must be matched to a distinct unassigned variable whose
domain contains it exactly; on success the matches are appended to the
assignments (`assignments.update(found_assignments)`), otherwise the
problem is unsatisfiable. -/
def isSmallEmptyDotsInDomain {V : Type} [DecidableEq V] (smalls : List (Finset Cell))
    (A : List (V × Dots)) (D : List (V × List Dots)) : Option (List (V × Dots)) :=
  if smalls.isEmpty then some A
  else
    let found := greedyMatch (keysOf A) D smalls []
    if found.length = smalls.length then some (A ++ found) else none

/-- `QuadrillionCSPAdapter.register_current_assignments`: recompute the
committed cells, validate the remaining empty region, and force the
small-component assignments.  Returns the assignment map after
inference, or `none` for Python's `False`. -/
def registerCurrentAssignments {V : Type} [DecidableEq V] (emptyGridsDots : Finset Cell)
    (A : List (V × Dots)) (D : List (V × List Dots)) : Option (List (V × Dots)) :=
  match isValidEmptyDots (emptyGridsDots \ unionDots A) with
  | some smalls => isSmallEmptyDotsInDomain smalls A D
  | none => none

/-- `QuadrillionCSPAdapter.is_consistent_assignment`: a candidate cell
set is consistent iff it is disjoint from the cells committed by the
registered assignments. -/
def isConsistentAssignment {V : Type} (A : List (V × Dots)) (assignment : V × Dots) : Bool :=
  decide (Disjoint (unionDots A) assignment.2)

/-- `QuadrillionCSPAdapter._is_on_empty_dots`. -/
def isOnEmptyDots (emptyGridsDots dots : Finset Cell) : Bool :=
  decide (dots ⊆ emptyGridsDots)

/-- `QuadrillionCSPAdapter._get_smallest_square_over_dots`:
`{(h, w) for h in range(y, height) for w in range(x, width)}` with
`y/x` the minima and `height/width` the maxima plus one — the
axis-aligned bounding box of the dots. -/
def getSmallestSquareOverDots (dots : Finset Cell) : Finset Cell :=
  Finset.Icc (minFst dots) (maxFst dots) ×ˢ Finset.Icc (minSnd dots) (maxSnd dots)

/-- The inner loops of `_extract_domains` for one shape: for each
location in the bounding box, for each unique config there, keep the
configured cell set iff it lies on empty cells and leaves a feasible
remainder.  Python accumulates into a `set`, modelled by skipping
values already present. -/
def domainFor (emptyGridsDots : Finset Cell) (shape : DotsSet) : List Dots :=
  (cellList (getSmallestSquareOverDots emptyGridsDots)).foldl
    (fun dom loc =>
      (shape.getUniqueConfigsAt loc).foldl
        (fun dom config =>
          let dots := shape.configured config
          if isOnEmptyDots emptyGridsDots dots
              && (isValidEmptyDots (emptyGridsDots \ dots)).isSome
              && !decide (dots ∈ dom)
          then dom ++ [dots] else dom)
        dom)
    []

/-- `QuadrillionCSPAdapter._extract_domains`: empty when the global
feasibility check rejects the empty cells, otherwise one entry per
variable. -/
def extractDomains (vars : List DotsSet) (emptyGridsDots : Finset Cell) :
    List (DotsSet × List Dots) :=
  match isValidEmptyDots emptyGridsDots with
  | some _ => vars.map fun shape => (shape, domainFor emptyGridsDots shape)
  | none => []

/-- The `QuadrillionCSPAdapter` as a constraint problem, as consumed by
`CSPSolver.__call__` during `_get_solution`. -/
def quadCSP (vars : List DotsSet) (emptyGridsDots : Finset Cell) : CSPProb DotsSet Dots :=
  { vars := vars
    doms := extractDomains vars emptyGridsDots
    register := registerCurrentAssignments emptyGridsDots
    consistent := isConsistentAssignment }

/-- The board state visible to the adapter, abstracting
`quadrillion.py`: the full shape inventory (`quadrillion.shapes`), each
shape's current cells (`frozenset(shape)`), the released unplaced
shapes, and the released empty grid cells.  The pick/release locking is
not modelled: the adapter's flow always releases, so `is_won` reduces
to the empty-cell test. -/
structure Board where
  allShapes : List DotsSet
  shapeDots : List (DotsSet × Dots)
  unplaced : List DotsSet
  emptyDots : Finset Cell

/-- `Quadrillion.is_won` for a board with nothing picked:
no empty cell remains. -/
def Board.isWon (b : Board) : Bool :=
  decide (b.emptyDots = ∅)

/-- `QuadrillionCSPAdapter._is_new_solution_needed`: with a nonempty
cached solution, a new search is needed iff some unplaced shape's
cached cells no longer lie on the empty cells; with no cache a search
is always needed. -/
def isNewSolutionNeeded (cache : List (DotsSet × Dots)) (vars : List DotsSet)
    (emptyDots : Finset Cell) : Bool :=
  if !cache.isEmpty then
    vars.any fun shape => !isOnEmptyDots emptyDots (alookupD cache shape ∅)
  else true

/-- Python `dict.update`: overwrite values of existing keys in place,
append genuinely new keys. -/
def dictUpdate {V β : Type} [DecidableEq V] (base upd : List (V × β)) : List (V × β) :=
  (base.map fun e => if decide (e.1 ∈ keysOf upd) then (e.1, alookupD upd e.1 e.2) else e)
    ++ upd.filter fun e => !decide (e.1 ∈ keysOf base)

/-- `QuadrillionCSPAdapter._cash_solution`: snapshot every shape's
current cells, then overwrite with the solution's cells. -/
def cashSolution (b : Board) (solution : List (DotsSet × Dots)) : List (DotsSet × Dots) :=
  dictUpdate (b.allShapes.map fun shape => (shape, alookupD b.shapeDots shape ∅)) solution

/-- `QuadrillionCSPAdapter._adapt_solution`: restrict the cached
solution to the current variables. -/
def adaptSolution (cache : List (DotsSet × Dots)) (vars : List DotsSet) :
    List (DotsSet × Dots) :=
  vars.map fun shape => (shape, alookupD cache shape ∅)

/-- The exceptions `_get_solution` can raise. -/
inductive SolveError
  | stateError
  | noSolution
  deriving DecidableEq

instance exceptDecidableEq {ε β : Type} [DecidableEq ε] [DecidableEq β] :
    DecidableEq (Except ε β) := fun a b =>
  match a, b with
  | .ok x, .ok y => decidable_of_iff (x = y) (by simp)
  | .error x, .error y => decidable_of_iff (x = y) (by simp)
  | .ok _, .error _ => isFalse (by simp)
  | .error _, .ok _ => isFalse (by simp)

/-- `QuadrillionCSPAdapter._get_solution`: reject a won board, search
afresh when needed (testing the solver's result for truthiness, caching
on success), otherwise adapt the cached solution.  Returns the solution
together with the cache left behind. -/
def getSolution (cache : List (DotsSet × Dots)) (b : Board) :
    Except SolveError (List (DotsSet × Dots) × List (DotsSet × Dots)) :=
  if b.isWon then .error .stateError
  else if isNewSolutionNeeded cache b.unplaced b.emptyDots then
    match cspSolverCall (quadCSP b.unplaced b.emptyDots) with
    | some solution =>
      if solution.isEmpty then .error .noSolution
      else .ok (solution, cashSolution b solution)
    | none => .error .noSolution
  else .ok (adaptSolution cache b.unplaced, cache)

/-- The board after `solve()` commits a solution: every solved shape is
moved onto its solution cells (`shape.set_dots(solution[shape])` then
`release()`), so those cells are no longer empty and no released shape
is left unplaced. -/
def commitSolve (b : Board) (solution : List (DotsSet × Dots)) : Board :=
  { allShapes := b.allShapes
    shapeDots := dictUpdate b.shapeDots solution
    unplaced := []
    emptyDots := b.emptyDots \ unionDots solution }

/-- An axis-aligned square region of cells with a given top-left corner
and side length, following the spec's words for comparison with
`_get_smallest_square_over_dots`. -/
def specSquareRegion (corner : Cell) (side : ℤ) : Finset Cell :=
  Finset.Icc corner.1 (corner.1 + side - 1) ×ˢ Finset.Icc corner.2 (corner.2 + side - 1)

/-- Spec-following definition of "the smallest axis-aligned square
region containing the dots": a square region, containing the dots, of
cardinality at most that of every square region containing them. -/
def IsSmallestEnclosingSquare (dots s : Finset Cell) : Prop :=
  (∃ corner side, 0 ≤ side ∧ s = specSquareRegion corner side)
    ∧ dots ⊆ s
    ∧ ∀ corner side, 0 ≤ side → dots ⊆ specSquareRegion corner side →
        s.card ≤ (specSquareRegion corner side).card

/-- Structural contract of the `CSP` interface on
`register_current_assignments`: inference only ever appends new
assignments, and only for variables that occur in the domain map and
are not yet assigned (`set(domains.keys()) - set(assignments.keys())`). -/
def RegisterStruct {V α : Type}
    (r : List (V × α) → List (V × List α) → Option (List (V × α))) : Prop :=
  ∀ A D A2, r A D = some A2 →
    ∃ ext, A2 = A ++ ext ∧ ∀ k ∈ keysOf ext, k ∈ keysOf D ∧ k ∉ keysOf A

/-- Soundness contract of `register_current_assignments` for
disjointness constraint problems: inferred assignments are appended,
keyed by distinct unassigned domain variables, take their values from
the current domain map, and keep the committed cell sets pairwise
disjoint. -/
def RegisterSound {V : Type}
    (r : List (V × Dots) → List (V × List Dots) → Option (List (V × Dots))) : Prop :=
  ∀ A D A2, r A D = some A2 →
    ∃ ext, A2 = A ++ ext ∧ (keysOf ext).Nodup
      ∧ (∀ e ∈ ext, e.1 ∈ keysOf D ∧ e.1 ∉ keysOf A ∧ ∃ dl, (e.1, dl) ∈ D ∧ e.2 ∈ dl)
      ∧ (PDisj A → PDisj A2)

/-- The assignment map agrees with a total solution. -/
def Agrees {V : Type} (sol : V → Dots) (A : List (V × Dots)) : Prop :=
  ∀ e ∈ A, e.2 = sol e.1

/-- A total solution of a disjointness constraint problem: every
variable gets a value from its initial domain and the values are
pairwise disjoint. -/
def IsSolution {V : Type} [DecidableEq V] (vars : List V) (doms : List (V × List Dots))
    (sol : V → Dots) : Prop :=
  (∀ v ∈ vars, sol v ∈ domList doms v)
    ∧ ∀ v ∈ vars, ∀ w ∈ vars, v ≠ w → Disjoint (sol v) (sol w)

/-- Completeness contract of `register_current_assignments`: on a
partial assignment compatible with some total solution, inference never
reports unsatisfiability and only infers assignments compatible with
that same solution (the `CSP` docstring: it returns `False` only "if
inference found that no solution is possible with the input
assignments"). -/
def RegisterComplete {V : Type} [DecidableEq V] (vars : List V)
    (doms : List (V × List Dots))
    (r : List (V × Dots) → List (V × List Dots) → Option (List (V × Dots))) : Prop :=
  ∀ sol, IsSolution vars doms sol →
    ∀ A D, Agrees sol A → keysOf A ⊆ vars → keysOf D ⊆ vars →
      ∃ A2, r A D = some A2 ∧ Agrees sol A2

/-- Invariant of the live domain map during the search, for the
soundness direction: duplicate-free keys drawn from the initial
domains' variables, all unassigned, and every remaining value comes
from the variable's initial domain and is disjoint from the committed
cells. -/
def DomInv {V : Type} [DecidableEq V] (doms : List (V × List Dots)) (A : List (V × Dots))
    (D : List (V × List Dots)) : Prop :=
  (keysOf D).Nodup ∧ keysOf D ⊆ keysOf doms ∧ (∀ k ∈ keysOf D, k ∉ keysOf A)
    ∧ ∀ e ∈ D, ∀ x ∈ e.2, x ∈ domList doms e.1 ∧ Disjoint x (unionDots A)

/-- Invariant of the assignment map during the search, for the
soundness direction. -/
def SInv {V : Type} [DecidableEq V] (doms : List (V × List Dots)) (A : List (V × Dots))
    (Dopt : Option (List (V × List Dots))) : Prop :=
  PDisj A ∧ (keysOf A).Nodup ∧ keysOf A ⊆ keysOf doms
    ∧ (∀ e ∈ A, e.2 ∈ domList doms e.1)
    ∧ ∀ D, Dopt = some D → DomInv doms A D

/-- Invariant for the completeness direction: the assignments agree
with a fixed total solution, every domain variable is either assigned
or still live, and each live variable's domain still contains its
solution value. -/
def CInv {V : Type} [DecidableEq V] (doms : List (V × List Dots)) (sol : V → Dots)
    (A : List (V × Dots)) (D : List (V × List Dots)) : Prop :=
  Agrees sol A ∧ (keysOf A).Nodup ∧ keysOf A ⊆ keysOf doms
    ∧ (keysOf D).Nodup ∧ keysOf D ⊆ keysOf doms
    ∧ (∀ k ∈ keysOf D, k ∉ keysOf A)
    ∧ (∀ v ∈ keysOf doms, v ∈ keysOf A ∨ v ∈ keysOf D)
    ∧ ∀ e ∈ D, sol e.1 ∈ e.2

/-- A single-cell example shape for concrete checks. -/
def exDot : DotsSet :=
  ⟨{(0, 0)}⟩

/-- A five-cell line example shape. -/
def exLine5 : DotsSet :=
  ⟨{(0, 0), (0, 1), (0, 2), (0, 3), (0, 4)}⟩

/-- Five empty cells in a row. -/
def exEmpty5 : Finset Cell :=
  {(0, 0), (0, 1), (0, 2), (0, 3), (0, 4)}

/-- Example board: one five-cell shape to place on five empty cells. -/
def exBoard : Board :=
  ⟨[exLine5], [(exLine5, exLine5.initial)], [exLine5], exEmpty5⟩

theorem mem_unionDots {V : Type} {A : List (V × Dots)} {x : Cell} :
    x ∈ unionDots A ↔ ∃ e ∈ A, x ∈ e.2 := by
  induction A with
  | nil => simp [unionDots]
  | cons e rest ih => simp [unionDots, ih]

theorem unionDots_append {V : Type} (A B : List (V × Dots)) :
    unionDots (A ++ B) = unionDots A ∪ unionDots B := by
  induction A with
  | nil => simp [unionDots]
  | cons e rest ih => simp [unionDots, ih, Finset.union_assoc]

theorem disjoint_unionDots {V : Type} {A : List (V × Dots)} {s : Dots} :
    Disjoint (unionDots A) s ↔ ∀ e ∈ A, Disjoint e.2 s := by
  induction A with
  | nil => simp [unionDots]
  | cons e rest ih => simp [unionDots, Finset.disjoint_union_left, ih]

theorem minFst_le {s : Finset Cell} {d : Cell} (hd : d ∈ s) : minFst s ≤ d.1 := by
  have h1 : d.1 ∈ s.image Prod.fst := Finset.mem_image_of_mem _ hd
  obtain ⟨m, hm⟩ := Finset.min_of_mem h1
  have h2 := Finset.min_le_of_eq h1 hm
  simpa [minFst, hm] using h2

theorem exists_minFst {s : Finset Cell} (h : s.Nonempty) : ∃ d ∈ s, d.1 = minFst s := by
  obtain ⟨m, hm⟩ := Finset.min_of_nonempty (h.image Prod.fst)
  obtain ⟨d, hd, hdm⟩ := Finset.mem_image.mp (Finset.mem_of_min hm)
  exact ⟨d, hd, by simp [minFst, hm, hdm]⟩

theorem le_maxFst {s : Finset Cell} {d : Cell} (hd : d ∈ s) : d.1 ≤ maxFst s := by
  have h1 : d.1 ∈ s.image Prod.fst := Finset.mem_image_of_mem _ hd
  obtain ⟨m, hm⟩ := Finset.max_of_mem h1
  have h2 := Finset.le_max_of_eq h1 hm
  simpa [maxFst, hm] using h2

theorem exists_maxFst {s : Finset Cell} (h : s.Nonempty) : ∃ d ∈ s, d.1 = maxFst s := by
  obtain ⟨m, hm⟩ := Finset.max_of_nonempty (h.image Prod.fst)
  obtain ⟨d, hd, hdm⟩ := Finset.mem_image.mp (Finset.mem_of_max hm)
  exact ⟨d, hd, by simp [maxFst, hm, hdm]⟩

theorem minSnd_le {s : Finset Cell} {d : Cell} (hd : d ∈ s) : minSnd s ≤ d.2 := by
  have h1 : d.2 ∈ s.image Prod.snd := Finset.mem_image_of_mem _ hd
  obtain ⟨m, hm⟩ := Finset.min_of_mem h1
  have h2 := Finset.min_le_of_eq h1 hm
  simpa [minSnd, hm] using h2

theorem exists_minSnd {s : Finset Cell} (h : s.Nonempty) : ∃ d ∈ s, d.2 = minSnd s := by
  obtain ⟨m, hm⟩ := Finset.min_of_nonempty (h.image Prod.snd)
  obtain ⟨d, hd, hdm⟩ := Finset.mem_image.mp (Finset.mem_of_min hm)
  exact ⟨d, hd, by simp [minSnd, hm, hdm]⟩

theorem le_maxSnd {s : Finset Cell} {d : Cell} (hd : d ∈ s) : d.2 ≤ maxSnd s := by
  have h1 : d.2 ∈ s.image Prod.snd := Finset.mem_image_of_mem _ hd
  obtain ⟨m, hm⟩ := Finset.max_of_mem h1
  have h2 := Finset.le_max_of_eq h1 hm
  simpa [maxSnd, hm] using h2

theorem exists_maxSnd {s : Finset Cell} (h : s.Nonempty) : ∃ d ∈ s, d.2 = maxSnd s := by
  obtain ⟨m, hm⟩ := Finset.max_of_nonempty (h.image Prod.snd)
  obtain ⟨d, hd, hdm⟩ := Finset.mem_image.mp (Finset.mem_of_max hm)
  exact ⟨d, hd, by simp [maxSnd, hm, hdm]⟩

theorem card_movedDots (s : Finset Cell) (loc : Cell) : (movedDots s loc).card = s.card := by
  unfold movedDots
  apply Finset.card_image_of_injective
  intro a b h
  simp only [Prod.mk.injEq] at h
  exact Prod.ext (by omega) (by omega)

theorem card_flippedVertically (H : ℤ) (s : Finset Cell) :
    (flippedVertically H s).card = s.card := by
  unfold flippedVertically
  apply Finset.card_image_of_injective
  intro a b h
  simp only [Prod.mk.injEq] at h
  exact Prod.ext (by omega) h.2

theorem card_rotated90Clockwise (H : ℤ) (s : Finset Cell) :
    (rotated90Clockwise H s).card = s.card := by
  unfold rotated90Clockwise
  apply Finset.card_image_of_injective
  intro a b h
  simp only [Prod.mk.injEq] at h
  exact Prod.ext (by omega) h.1

theorem card_rotated180 (H W : ℤ) (s : Finset Cell) : (rotated180 H W s).card = s.card := by
  unfold rotated180
  apply Finset.card_image_of_injective
  intro a b h
  simp only [Prod.mk.injEq] at h
  exact Prod.ext (by omega) (by omega)

theorem card_rotated90Counterclockwise (W : ℤ) (s : Finset Cell) :
    (rotated90Counterclockwise W s).card = s.card := by
  unfold rotated90Counterclockwise
  apply Finset.card_image_of_injective
  intro a b h
  simp only [Prod.mk.injEq] at h
  exact Prod.ext h.2 (by omega)

/-- C7: for every shape and every placement config (any integer flip
count, rotation count and translation), the number of occupied cells of
`configured(config)` equals the cell count of the canonical pattern. -/
theorem configured_card_eq_initial (S : DotsSet) (config : Config) :
    (S.configured config).card = S.initial.card := by
  have hflip : (S.initialDotsFlipped config.flips).card = S.initial.card := by
    unfold DotsSet.initialDotsFlipped
    split_ifs
    · exact card_flippedVertically _ _
    · rfl
  unfold DotsSet.configured DotsSet.rotatedClockwise
  split_ifs <;>
    simp [card_movedDots, card_rotated90Clockwise, card_rotated180,
      card_rotated90Counterclockwise, hflip]

theorem mem_cellList {s : Finset Cell} {d : Cell} : d ∈ cellList s ↔ d ∈ s := by
  obtain ⟨m, hm⟩ := s
  induction m using Quotient.inductionOn with
  | h l =>
    show d ∈ l.insertionSort cellLe ↔ _
    rw [List.mem_insertionSort]
    simp [Finset.mem_mk]

theorem mem_foldl_dedup {γ β : Type} [DecidableEq β] (g : γ → β) (cond : β → Bool) :
    ∀ (l : List γ) (init : List β) (x : β),
      x ∈ l.foldl
          (fun acc c => if cond (g c) && !decide (g c ∈ acc) then acc ++ [g c] else acc) init
        ↔ x ∈ init ∨ ∃ c ∈ l, g c = x ∧ cond x = true := by
  intro l
  induction l with
  | nil => simp
  | cons c rest ih =>
    intro init x
    rw [List.foldl_cons]
    by_cases hmem : g c ∈ init
    · rw [if_neg (by simp [hmem])]
      rw [ih]
      constructor
      · rintro (h | ⟨c', hc', hgx, hcx⟩)
        · exact Or.inl h
        · exact Or.inr ⟨c', List.mem_cons_of_mem _ hc', hgx, hcx⟩
      · rintro (h | ⟨c', hc', hgx, hcx⟩)
        · exact Or.inl h
        · rcases List.mem_cons.mp hc' with rfl | hc'
          · exact Or.inl (hgx ▸ hmem)
          · exact Or.inr ⟨c', hc', hgx, hcx⟩
    · by_cases hcond : cond (g c) = true
      · rw [if_pos (by simp [hmem, hcond])]
        rw [ih]
        constructor
        · rintro (h | ⟨c', hc', hgx, hcx⟩)
          · rcases List.mem_append.mp h with h | h
            · exact Or.inl h
            · rcases List.mem_singleton.mp h with rfl
              exact Or.inr ⟨c, List.mem_cons_self _ _, rfl, hcond⟩
          · exact Or.inr ⟨c', List.mem_cons_of_mem _ hc', hgx, hcx⟩
        · rintro (h | ⟨c', hc', hgx, hcx⟩)
          · exact Or.inl (List.mem_append_left _ h)
          · rcases List.mem_cons.mp hc' with rfl | hc'
            · exact Or.inl (List.mem_append_right _ (by simp [hgx]))
            · exact Or.inr ⟨c', hc', hgx, hcx⟩
      · rw [if_neg (by simp [hcond])]
        rw [ih]
        constructor
        · rintro (h | ⟨c', hc', hgx, hcx⟩)
          · exact Or.inl h
          · exact Or.inr ⟨c', List.mem_cons_of_mem _ hc', hgx, hcx⟩
        · rintro (h | ⟨c', hc', hgx, hcx⟩)
          · exact Or.inl h
          · rcases List.mem_cons.mp hc' with rfl | hc'
            · exact absurd (hgx ▸ hcx) hcond
            · exact Or.inr ⟨c', hc', hgx, hcx⟩

theorem mem_domainFor {emptyDots : Finset Cell} {shape : DotsSet} {s : Dots} :
    s ∈ domainFor emptyDots shape ↔
      ∃ loc ∈ getSmallestSquareOverDots emptyDots,
        ∃ config ∈ shape.getUniqueConfigsAt loc,
          s = shape.configured config ∧ s ⊆ emptyDots
            ∧ (isValidEmptyDots (emptyDots \ s)).isSome = true := by
  have hinner : ∀ (loc : Cell) (init : List Dots) (x : Dots),
      x ∈ (shape.getUniqueConfigsAt loc).foldl
          (fun dom config =>
            let dots := shape.configured config
            if isOnEmptyDots emptyDots dots
                && (isValidEmptyDots (emptyDots \ dots)).isSome
                && !decide (dots ∈ dom)
            then dom ++ [dots] else dom) init
        ↔ x ∈ init ∨ ∃ config ∈ shape.getUniqueConfigsAt loc,
            shape.configured config = x
              ∧ (isOnEmptyDots emptyDots x && (isValidEmptyDots (emptyDots \ x)).isSome) = true := by
    intro loc init x
    exact mem_foldl_dedup (fun config => shape.configured config)
      (fun dots =>
        isOnEmptyDots emptyDots dots && (isValidEmptyDots (emptyDots \ dots)).isSome)
      _ init x
  have houter : ∀ (locs : List Cell) (init : List Dots) (x : Dots),
      x ∈ locs.foldl
          (fun dom loc =>
            (shape.getUniqueConfigsAt loc).foldl
              (fun dom config =>
                let dots := shape.configured config
                if isOnEmptyDots emptyDots dots
                    && (isValidEmptyDots (emptyDots \ dots)).isSome
                    && !decide (dots ∈ dom)
                then dom ++ [dots] else dom) dom) init
        ↔ x ∈ init ∨ ∃ loc ∈ locs, ∃ config ∈ shape.getUniqueConfigsAt loc,
            shape.configured config = x
              ∧ (isOnEmptyDots emptyDots x && (isValidEmptyDots (emptyDots \ x)).isSome) = true := by
    intro locs
    induction locs with
    | nil => simp
    | cons loc rest ih =>
      intro init x
      rw [List.foldl_cons, ih, hinner]
      constructor
      · rintro ((h | h) | ⟨loc', hl', h⟩)
        · exact Or.inl h
        · obtain ⟨config, hcfg, h1, h2⟩ := h
          exact Or.inr ⟨loc, List.mem_cons_self _ _, config, hcfg, h1, h2⟩
        · exact Or.inr ⟨loc', List.mem_cons_of_mem _ hl', h⟩
      · rintro (h | ⟨loc', hl', h⟩)
        · exact Or.inl (Or.inl h)
        · rcases List.mem_cons.mp hl' with rfl | hl'
          · exact Or.inl (Or.inr h)
          · exact Or.inr ⟨loc', hl', h⟩
  unfold domainFor
  rw [houter]
  simp only [List.not_mem_nil, false_or]
  constructor
  · rintro ⟨loc, hloc, config, hcfg, h1, h2⟩
    rw [Bool.and_eq_true, isOnEmptyDots, decide_eq_true_eq] at h2
    exact ⟨loc, mem_cellList.mp hloc, config, hcfg, h1.symm, h2.1, h2.2⟩
  · rintro ⟨loc, hloc, config, hcfg, h1, h2, h3⟩
    refine ⟨loc, mem_cellList.mpr hloc, config, hcfg, h1.symm, ?_⟩
    rw [Bool.and_eq_true, isOnEmptyDots, decide_eq_true_eq]
    exact ⟨h2, h3⟩

/-- C5 counterexample: on the two-cell set `{(0,0), (0,1)}` the
function `_get_smallest_square_over_dots` returns the two-cell bounding
box, which is not an axis-aligned square region at all, hence not the
smallest axis-aligned square containing the dots as the claim states. -/
theorem square_over_dots_not_square :
    ¬ IsSmallestEnclosingSquare {((0 : ℤ), (0 : ℤ)), (0, 1)}
      (getSmallestSquareOverDots {((0 : ℤ), (0 : ℤ)), (0, 1)}) := by
  have hval : getSmallestSquareOverDots {((0 : ℤ), (0 : ℤ)), (0, 1)}
      = {((0 : ℤ), (0 : ℤ)), (0, 1)} := by decide
  rintro ⟨⟨corner, side, hside, heq⟩, -, -⟩
  rw [hval] at heq
  have hmem : ∀ p : Cell, p ∈ ({((0 : ℤ), (0 : ℤ)), (0, 1)} : Finset Cell) ↔
      (corner.1 ≤ p.1 ∧ p.1 ≤ corner.1 + side - 1)
        ∧ corner.2 ≤ p.2 ∧ p.2 ≤ corner.2 + side - 1 := by
    intro p
    rw [heq]
    simp [specSquareRegion, Finset.mem_product, Finset.mem_Icc, and_assoc]
  have h00 := (hmem (0, 0)).mp (by simp)
  have h01 := (hmem (0, 1)).mp (by simp)
  have hA := (hmem (corner.1, 0)).mpr ⟨⟨le_refl _, by omega⟩, by omega, by omega⟩
  have hB := (hmem (corner.1 + 1, 0)).mpr ⟨⟨by omega, by omega⟩, by omega, by omega⟩
  simp [Prod.ext_iff] at hA hB
  omega

/-- C5 (amended): `_get_smallest_square_over_dots` returns the minimal
axis-aligned bounding rectangle of the dots (not a square), and for
each variable of a feasible problem the extracted domain is exactly the
set of cell sets configured from the shape's unique configs at the
rectangle's locations that lie entirely on empty cells and leave a
still-feasible remainder. -/
theorem square_over_dots_box_and_domains :
    (∀ dots : Finset Cell, dots ⊆ getSmallestSquareOverDots dots
      ∧ ∀ d : Cell, d ∈ getSmallestSquareOverDots dots ↔
          minFst dots ≤ d.1 ∧ d.1 ≤ maxFst dots ∧ minSnd dots ≤ d.2 ∧ d.2 ≤ maxSnd dots)
    ∧ ∀ (vars : List DotsSet) (emptyDots : Finset Cell) (shape : DotsSet) (dom : List Dots),
        (shape, dom) ∈ extractDomains vars emptyDots →
        ∀ s : Dots, s ∈ dom ↔
          ∃ loc ∈ getSmallestSquareOverDots emptyDots,
            ∃ config ∈ shape.getUniqueConfigsAt loc,
              s = shape.configured config ∧ s ⊆ emptyDots
                ∧ (isValidEmptyDots (emptyDots \ s)).isSome = true := by
  constructor
  · intro dots
    constructor
    · intro d hd
      rw [getSmallestSquareOverDots, Finset.mem_product, Finset.mem_Icc, Finset.mem_Icc]
      exact ⟨⟨minFst_le hd, le_maxFst hd⟩, minSnd_le hd, le_maxSnd hd⟩
    · intro d
      rw [getSmallestSquareOverDots, Finset.mem_product, Finset.mem_Icc, Finset.mem_Icc]
      tauto
  · intro vars emptyDots shape dom hmem s
    unfold extractDomains at hmem
    rcases hvE : isValidEmptyDots emptyDots with - | smalls
    · rw [hvE] at hmem
      simp at hmem
    · rw [hvE] at hmem
      obtain ⟨shape', hs', heq⟩ := List.mem_map.mp hmem
      rw [Prod.mk.injEq] at heq
      obtain ⟨rfl, rfl⟩ := heq
      exact mem_domainFor

/-- Concrete instantiation of `square_over_dots_box_and_domains`: on the
five-cell row, the single-cell shape's domain contains `{(0,0)}` and the
characterization exhibits its location and config. -/
theorem square_over_dots_box_and_domains_witness :
    ∃ loc ∈ getSmallestSquareOverDots exEmpty5,
      ∃ config ∈ exDot.getUniqueConfigsAt loc,
        ({((0 : ℤ), (0 : ℤ))} : Dots) = exDot.configured config
          ∧ ({((0 : ℤ), (0 : ℤ))} : Dots) ⊆ exEmpty5
          ∧ (isValidEmptyDots (exEmpty5 \ {((0 : ℤ), (0 : ℤ))})).isSome = true :=
  (square_over_dots_box_and_domains.2 [exDot] exEmpty5 exDot (domainFor exEmpty5 exDot)
    (by decide) {((0 : ℤ), (0 : ℤ))}).mp (by decide)

theorem minFst_eq_of {s : Finset Cell} (h : s.Nonempty) (m : ℤ)
    (hle : ∀ d ∈ s, m ≤ d.1) (hattain : ∃ d ∈ s, d.1 = m) : minFst s = m := by
  obtain ⟨d, hd, hdm⟩ := hattain
  obtain ⟨e, he, hem⟩ := exists_minFst h
  have h1 := minFst_le hd
  have h2 := hle e he
  omega

theorem maxFst_eq_of {s : Finset Cell} (h : s.Nonempty) (m : ℤ)
    (hle : ∀ d ∈ s, d.1 ≤ m) (hattain : ∃ d ∈ s, d.1 = m) : maxFst s = m := by
  obtain ⟨d, hd, hdm⟩ := hattain
  obtain ⟨e, he, hem⟩ := exists_maxFst h
  have h1 := le_maxFst hd
  have h2 := hle e he
  omega

theorem minSnd_eq_of {s : Finset Cell} (h : s.Nonempty) (m : ℤ)
    (hle : ∀ d ∈ s, m ≤ d.2) (hattain : ∃ d ∈ s, d.2 = m) : minSnd s = m := by
  obtain ⟨d, hd, hdm⟩ := hattain
  obtain ⟨e, he, hem⟩ := exists_minSnd h
  have h1 := minSnd_le hd
  have h2 := hle e he
  omega

theorem maxSnd_eq_of {s : Finset Cell} (h : s.Nonempty) (m : ℤ)
    (hle : ∀ d ∈ s, d.2 ≤ m) (hattain : ∃ d ∈ s, d.2 = m) : maxSnd s = m := by
  obtain ⟨d, hd, hdm⟩ := hattain
  obtain ⟨e, he, hem⟩ := exists_maxSnd h
  have h1 := le_maxSnd hd
  have h2 := hle e he
  omega

theorem minFst_movedDots {s : Finset Cell} (h : s.Nonempty) (loc : Cell) :
    minFst (movedDots s loc) = minFst s + loc.1 := by
  apply minFst_eq_of (h.image _)
  · intro d hd
    obtain ⟨e, he, rfl⟩ := Finset.mem_image.mp hd
    have := minFst_le he
    dsimp
    omega
  · obtain ⟨e, he, hem⟩ := exists_minFst h
    exact ⟨_, Finset.mem_image_of_mem _ he, by dsimp; omega⟩

theorem minSnd_movedDots {s : Finset Cell} (h : s.Nonempty) (loc : Cell) :
    minSnd (movedDots s loc) = minSnd s + loc.2 := by
  apply minSnd_eq_of (h.image _)
  · intro d hd
    obtain ⟨e, he, rfl⟩ := Finset.mem_image.mp hd
    have := minSnd_le he
    dsimp
    omega
  · obtain ⟨e, he, hem⟩ := exists_minSnd h
    exact ⟨_, Finset.mem_image_of_mem _ he, by dsimp; omega⟩

theorem movedDots_zero (s : Finset Cell) : movedDots s (0, 0) = s := by
  unfold movedDots
  ext d
  simp [Prod.ext_iff]

theorem stats_flippedVertically {s : Finset Cell} (h : s.Nonempty) (H : ℤ) :
    minFst (flippedVertically H s) = H - 1 - maxFst s
      ∧ maxFst (flippedVertically H s) = H - 1 - minFst s
      ∧ minSnd (flippedVertically H s) = minSnd s
      ∧ maxSnd (flippedVertically H s) = maxSnd s := by
  refine ⟨minFst_eq_of (h.image _) _ ?_ ?_, maxFst_eq_of (h.image _) _ ?_ ?_,
    minSnd_eq_of (h.image _) _ ?_ ?_, maxSnd_eq_of (h.image _) _ ?_ ?_⟩
  · intro d hd
    obtain ⟨e, he, rfl⟩ := Finset.mem_image.mp hd
    have := le_maxFst he
    dsimp
    omega
  · obtain ⟨e, he, hem⟩ := exists_maxFst h
    exact ⟨_, Finset.mem_image_of_mem _ he, by dsimp; omega⟩
  · intro d hd
    obtain ⟨e, he, rfl⟩ := Finset.mem_image.mp hd
    have := minFst_le he
    dsimp
    omega
  · obtain ⟨e, he, hem⟩ := exists_minFst h
    exact ⟨_, Finset.mem_image_of_mem _ he, by dsimp; omega⟩
  · intro d hd
    obtain ⟨e, he, rfl⟩ := Finset.mem_image.mp hd
    have := minSnd_le he
    dsimp
    omega
  · obtain ⟨e, he, hem⟩ := exists_minSnd h
    exact ⟨_, Finset.mem_image_of_mem _ he, by dsimp; omega⟩
  · intro d hd
    obtain ⟨e, he, rfl⟩ := Finset.mem_image.mp hd
    have := le_maxSnd he
    dsimp
    omega
  · obtain ⟨e, he, hem⟩ := exists_maxSnd h
    exact ⟨_, Finset.mem_image_of_mem _ he, by dsimp; omega⟩

theorem stats_rotated90Clockwise {s : Finset Cell} (h : s.Nonempty) (H : ℤ) :
    minFst (rotated90Clockwise H s) = minSnd s
      ∧ minSnd (rotated90Clockwise H s) = H - 1 - maxFst s := by
  refine ⟨minFst_eq_of (h.image _) _ ?_ ?_, minSnd_eq_of (h.image _) _ ?_ ?_⟩
  · intro d hd
    obtain ⟨e, he, rfl⟩ := Finset.mem_image.mp hd
    have := minSnd_le he
    dsimp
    omega
  · obtain ⟨e, he, hem⟩ := exists_minSnd h
    exact ⟨_, Finset.mem_image_of_mem _ he, by dsimp; omega⟩
  · intro d hd
    obtain ⟨e, he, rfl⟩ := Finset.mem_image.mp hd
    have := le_maxFst he
    dsimp
    omega
  · obtain ⟨e, he, hem⟩ := exists_maxFst h
    exact ⟨_, Finset.mem_image_of_mem _ he, by dsimp; omega⟩

theorem stats_rotated180 {s : Finset Cell} (h : s.Nonempty) (H W : ℤ) :
    minFst (rotated180 H W s) = H - 1 - maxFst s
      ∧ minSnd (rotated180 H W s) = W - 1 - maxSnd s := by
  refine ⟨minFst_eq_of (h.image _) _ ?_ ?_, minSnd_eq_of (h.image _) _ ?_ ?_⟩
  · intro d hd
    obtain ⟨e, he, rfl⟩ := Finset.mem_image.mp hd
    have := le_maxFst he
    dsimp
    omega
  · obtain ⟨e, he, hem⟩ := exists_maxFst h
    exact ⟨_, Finset.mem_image_of_mem _ he, by dsimp; omega⟩
  · intro d hd
    obtain ⟨e, he, rfl⟩ := Finset.mem_image.mp hd
    have := le_maxSnd he
    dsimp
    omega
  · obtain ⟨e, he, hem⟩ := exists_maxSnd h
    exact ⟨_, Finset.mem_image_of_mem _ he, by dsimp; omega⟩

theorem stats_rotated90Counterclockwise {s : Finset Cell} (h : s.Nonempty) (W : ℤ) :
    minFst (rotated90Counterclockwise W s) = W - 1 - maxSnd s
      ∧ minSnd (rotated90Counterclockwise W s) = minFst s := by
  refine ⟨minFst_eq_of (h.image _) _ ?_ ?_, minSnd_eq_of (h.image _) _ ?_ ?_⟩
  · intro d hd
    obtain ⟨e, he, rfl⟩ := Finset.mem_image.mp hd
    have := le_maxSnd he
    dsimp
    omega
  · obtain ⟨e, he, hem⟩ := exists_maxSnd h
    exact ⟨_, Finset.mem_image_of_mem _ he, by dsimp; omega⟩
  · intro d hd
    obtain ⟨e, he, rfl⟩ := Finset.mem_image.mp hd
    have := minFst_le he
    dsimp
    omega
  · obtain ⟨e, he, hem⟩ := exists_minFst h
    exact ⟨_, Finset.mem_image_of_mem _ he, by dsimp; omega⟩

theorem maxFst_initial (S : DotsSet) : maxFst S.initial = S.height - 1 := by
  unfold DotsSet.height
  ring

theorem maxSnd_initial (S : DotsSet) : maxSnd S.initial = S.width - 1 := by
  unfold DotsSet.width
  ring

theorem flipped_nonempty (S : DotsSet) (hne : S.initial.Nonempty) (f : ℤ) :
    (S.initialDotsFlipped f).Nonempty := by
  unfold DotsSet.initialDotsFlipped
  split_ifs
  · exact hne.image _
  · exact hne

theorem base_nonempty (S : DotsSet) (hne : S.initial.Nonempty) (f r : ℤ) :
    (S.rotatedClockwise (S.initialDotsFlipped f) r).Nonempty := by
  have hf := flipped_nonempty S hne f
  unfold DotsSet.rotatedClockwise rotated90Clockwise rotated180 rotated90Counterclockwise
  split_ifs
  · exact hf
  · exact hf.image _
  · exact hf.image _
  · exact hf.image _

theorem base_minLoc_zero (S : DotsSet) (hne : S.initial.Nonempty)
    (h1 : minFst S.initial = 0) (h2 : minSnd S.initial = 0) (f r : ℤ) :
    minFst (S.rotatedClockwise (S.initialDotsFlipped f) r) = 0
      ∧ minSnd (S.rotatedClockwise (S.initialDotsFlipped f) r) = 0 := by
  have hf := flipped_nonempty S hne f
  have hstats : minFst (S.initialDotsFlipped f) = 0
      ∧ maxFst (S.initialDotsFlipped f) = S.height - 1
      ∧ minSnd (S.initialDotsFlipped f) = 0
      ∧ maxSnd (S.initialDotsFlipped f) = S.width - 1 := by
    unfold DotsSet.initialDotsFlipped
    split_ifs
    · obtain ⟨a, b, c, d⟩ := stats_flippedVertically hne S.height
      rw [a, b, c, d, maxFst_initial, maxSnd_initial, h1, h2]
      omega
    · rw [maxFst_initial, maxSnd_initial]
      exact ⟨h1, by omega, h2, by omega⟩
  obtain ⟨s1, s2, s3, s4⟩ := hstats
  unfold DotsSet.rotatedClockwise
  split_ifs
  · exact ⟨s1, s3⟩
  · obtain ⟨a, b⟩ := stats_rotated90Clockwise hf S.height
    rw [a, b, s2, s3]
    omega
  · obtain ⟨a, b⟩ := stats_rotated180 hf S.height S.width
    rw [a, b, s2, s4]
    omega
  · obtain ⟨a, b⟩ := stats_rotated90Counterclockwise hf S.width
    rw [a, b, s1, s4]
    omega

theorem initialDotsFlipped_emod (S : DotsSet) (t : ℤ) :
    S.initialDotsFlipped (t % 2) = S.initialDotsFlipped t := by
  unfold DotsSet.initialDotsFlipped
  rw [Int.emod_emod_of_dvd t (dvd_refl 2)]

theorem rotatedClockwise_emod (S : DotsSet) (dots : Finset Cell) (t : ℤ) :
    S.rotatedClockwise dots (t % 4) = S.rotatedClockwise dots t := by
  unfold DotsSet.rotatedClockwise
  rw [Int.emod_emod_of_dvd t (dvd_refl 4)]

theorem configured_normalizeConfig (S : DotsSet) (c : Config) :
    S.configured (normalizeConfig c) = S.configured c := by
  unfold DotsSet.configured normalizeConfig
  dsimp only
  rw [initialDotsFlipped_emod, rotatedClockwise_emod]

theorem fold_configs_mono (S : DotsSet) :
    ∀ (l : List (ℤ × ℤ)) (st : List (Finset Cell) × List Config),
      ∀ c ∈ st.2, c ∈ (l.foldl (uniqueConfigsStep S) st).2 := by
  intro l
  induction l with
  | nil => intro st c hc; exact hc
  | cons fr rest ih =>
    intro st c hc
    rw [List.foldl_cons]
    apply ih
    unfold uniqueConfigsStep
    dsimp only
    split_ifs
    · exact hc
    · exact List.mem_append_left _ hc

theorem uniqueConfigs_cover_aux (S : DotsSet) :
    ∀ (l : List (ℤ × ℤ)) (st : List (Finset Cell) × List Config),
      (∀ ds ∈ st.1, ∃ c ∈ st.2, S.configured c = ds ∧ c.location = (0, 0)) →
      ∀ fr ∈ l, ∃ c ∈ (l.foldl (uniqueConfigsStep S) st).2,
        S.configured c = S.configured ⟨fr.1, fr.2, (0, 0)⟩ ∧ c.location = (0, 0) := by
  intro l
  induction l with
  | nil =>
    intro st _ fr hfr
    simp at hfr
  | cons fr0 rest ih =>
    intro st hst fr hfr
    rw [List.foldl_cons]
    have hst' : ∀ ds ∈ (uniqueConfigsStep S st fr0).1,
        ∃ c ∈ (uniqueConfigsStep S st fr0).2, S.configured c = ds ∧ c.location = (0, 0) := by
      intro ds hds
      unfold uniqueConfigsStep at hds ⊢
      dsimp only at hds ⊢
      split_ifs at hds ⊢ with h
      · exact hst ds hds
      · rcases List.mem_append.mp hds with h1 | h1
        · obtain ⟨c, hc, hcfg⟩ := hst ds h1
          exact ⟨c, List.mem_append_left _ hc, hcfg⟩
        · rcases List.mem_singleton.mp h1 with rfl
          exact ⟨⟨fr0.1, fr0.2, (0, 0)⟩,
            List.mem_append_right _ (List.mem_singleton_self _), rfl, rfl⟩
    rcases List.mem_cons.mp hfr with rfl | hfr'
    · have hcov : ∃ c ∈ (uniqueConfigsStep S st fr).2,
          S.configured c = S.configured ⟨fr.1, fr.2, (0, 0)⟩ ∧ c.location = (0, 0) := by
        unfold uniqueConfigsStep
        dsimp only
        split_ifs with h
        · exact hst _ h
        · exact ⟨⟨fr.1, fr.2, (0, 0)⟩,
            List.mem_append_right _ (List.mem_singleton_self _), rfl, rfl⟩
      obtain ⟨c, hc, hcfg⟩ := hcov
      exact ⟨c, fold_configs_mono S rest _ c hc, hcfg⟩
    · exact ih (uniqueConfigsStep S st fr0) hst' fr hfr'

theorem uniqueConfigs_cover (S : DotsSet) {fr : ℤ × ℤ} (hfr : fr ∈ allFlipRotations) :
    ∃ c ∈ S.uniqueConfigs, S.configured c = S.configured ⟨fr.1, fr.2, (0, 0)⟩
      ∧ c.location = (0, 0) :=
  uniqueConfigs_cover_aux S allFlipRotations ([], []) (by simp) fr hfr

/-- C6: for a shape and a non-empty cell set `D`, `set_dots(D)` fails
exactly when no canonical config anchored at `D`'s minimum `(row,
column)` reproduces `D`; on success the shape's occupied cells become
exactly `D`; and for a shape whose canonical pattern attains row 0 and
column 0 as its minima, `set_dots(configured(c))` succeeds for every
placement `c`. -/
theorem setDots_spec (S : DotsSet) (hne : S.initial.Nonempty) (D : Finset Cell)
    (hD : D.Nonempty) :
    (S.setDots D = none ↔ ∀ config ∈ S.getUniqueConfigsAt (minLoc D), S.configured config ≠ D)
      ∧ (∀ config, S.setDots D = some config → S.dotsAfterSet config = D)
      ∧ (minFst S.initial = 0 → minSnd S.initial = 0 →
          ∀ c : Config, (S.setDots (S.configured c)).isSome = true) := by
  refine ⟨?_, ?_, ?_⟩
  · unfold DotsSet.setDots
    rw [List.find?_eq_none]
    constructor
    · intro h config hcfg
      have := h config hcfg
      simpa using this
    · intro h config hcfg
      simpa using h config hcfg
  · intro config hfind
    unfold DotsSet.setDots at hfind
    have hp := List.find?_some hfind
    rw [decide_eq_true_eq] at hp
    unfold DotsSet.dotsAfterSet
    rw [configured_normalizeConfig]
    exact hp
  · intro h1 h2 c
    have hBne := base_nonempty S hne c.flips c.rotations
    have hmins := base_minLoc_zero S hne h1 h2 c.flips c.rotations
    have hminloc : minLoc (S.configured c) = c.location := by
      unfold minLoc DotsSet.configured
      rw [minFst_movedDots hBne, minSnd_movedDots hBne, hmins.1, hmins.2]
      simp
    have hfr : ((c.flips % 2, c.rotations % 4) : ℤ × ℤ) ∈ allFlipRotations := by
      have hf2 : c.flips % 2 = 0 ∨ c.flips % 2 = 1 := Int.emod_two_eq c.flips
      have hr0 : 0 ≤ c.rotations % 4 := Int.emod_nonneg _ (by norm_num)
      have hr1 : c.rotations % 4 < 4 := Int.emod_lt_of_pos _ (by norm_num)
      simp only [allFlipRotations, List.mem_cons, List.not_mem_nil, or_false,
        Prod.mk.injEq]
      omega
    obtain ⟨c0, hc0, hc0cfg, hc0loc⟩ := uniqueConfigs_cover S hfr
    have hbase : S.configured c0
        = S.rotatedClockwise (S.initialDotsFlipped c.flips) c.rotations := by
      rw [hc0cfg]
      show movedDots (S.rotatedClockwise (S.initialDotsFlipped (c.flips % 2))
        (c.rotations % 4)) (0, 0) = _
      rw [movedDots_zero, initialDotsFlipped_emod, rotatedClockwise_emod]
    have hc0base : S.configured c0
        = movedDots (S.rotatedClockwise (S.initialDotsFlipped c0.flips) c0.rotations)
            (0, 0) := by
      show movedDots _ c0.location = _
      rw [hc0loc]
    unfold DotsSet.setDots
    rw [List.find?_isSome]
    refine ⟨{ c0 with location := c.location }, ?_, ?_⟩
    · rw [hminloc]
      unfold DotsSet.getUniqueConfigsAt
      exact List.mem_map.mpr ⟨c0, hc0, rfl⟩
    · rw [decide_eq_true_eq]
      show movedDots (S.rotatedClockwise (S.initialDotsFlipped c0.flips) c0.rotations)
        c.location = S.configured c
      have : S.rotatedClockwise (S.initialDotsFlipped c0.flips) c0.rotations
          = S.rotatedClockwise (S.initialDotsFlipped c.flips) c.rotations := by
        have h3 := hc0base.symm.trans hbase
        rwa [movedDots_zero] at h3
      rw [this]
      rfl

/-- Concrete instantiation of `setDots_spec`: reverse-mapping a
configured placement of the single-cell shape succeeds, and without a
matching config `set_dots` fails. -/
theorem setDots_spec_witness :
    (exDot.setDots (exDot.configured ⟨1, 3, (5, 7)⟩)).isSome = true
      ∧ (exDot.setDots {((0 : ℤ), (0 : ℤ)), (0, 1)} = none
          ↔ ∀ config ∈ exDot.getUniqueConfigsAt (minLoc {((0 : ℤ), (0 : ℤ)), (0, 1)}),
              exDot.configured config ≠ {((0 : ℤ), (0 : ℤ)), (0, 1)}) :=
  ⟨(setDots_spec exDot (by decide) {(0, 0)} (by decide)).2.2 (by decide) (by decide)
      ⟨1, 3, (5, 7)⟩,
    (setDots_spec exDot (by decide) {((0 : ℤ), (0 : ℤ)), (0, 1)} (by decide)).1⟩

theorem keysOf_append {V β : Type} (A B : List (V × β)) :
    keysOf (A ++ B) = keysOf A ++ keysOf B := by
  unfold keysOf
  exact List.map_append _ _ _

theorem mem_keysOf {V β : Type} {A : List (V × β)} {e : V × β} (he : e ∈ A) :
    e.1 ∈ keysOf A :=
  List.mem_map_of_mem _ he

theorem undoKeys_append {V α : Type} [DecidableEq V] (A ext : List (V × α))
    (hfresh : ∀ k ∈ keysOf ext, k ∉ keysOf A) :
    undoKeys (keysOf A) (A ++ ext) = A := by
  unfold undoKeys
  rw [List.filter_append]
  have h1 : A.filter (fun e => decide (e.1 ∈ keysOf A)) = A := by
    rw [List.filter_eq_self]
    intro e he
    exact decide_eq_true (mem_keysOf he)
  have h2 : ext.filter (fun e => decide (e.1 ∈ keysOf A)) = [] := by
    rw [List.filter_eq_nil]
    intro e he
    simp only [decide_eq_true_eq]
    exact hfresh e.1 (mem_keysOf he)
  rw [h1, h2, List.append_nil]

/-- C2: whenever `forward_check` does not report failure, every value
remaining in the filtered domain of every variable (all of them
unassigned) is disjoint from the union of the cells committed by the
registered assignments, including those inferred by
`register_current_assignments`. -/
theorem forwardCheck_domains_disjoint {V : Type} [DecidableEq V]
    (p : CSPProb V Dots) (hp : p.consistent = isConsistentAssignment)
    (A A2 : List (V × Dots)) (D D2 : List (V × List Dots))
    (h : forwardCheck p A D = (some D2, A2)) :
    ∀ e ∈ D2, e.1 ∉ keysOf A2 ∧ ∀ s ∈ e.2, Disjoint (unionDots A2) s := by
  unfold forwardCheck at h
  rcases hreg : p.register A D with - | A2'
  · rw [hreg] at h
    simp at h
  · rw [hreg] at h
    dsimp only at h
    split_ifs at h with hany
    · simp at h
    · rw [Prod.mk.injEq, Option.some.injEq] at h
      obtain ⟨hD2, rfl⟩ := h
      intro e he
      rw [← hD2] at he
      obtain ⟨e0, he0, rfl⟩ := List.mem_map.mp he
      have hfil := List.mem_filter.mp he0
      constructor
      · have := hfil.2
        simpa using this
      · intro s hs
        have hsf := List.mem_filter.mp hs
        have := hsf.2
        rw [hp] at this
        unfold isConsistentAssignment at this
        simpa using this

/-- Concrete instantiation of `forwardCheck_domains_disjoint` on a
two-variable disjointness problem where one assignment is registered. -/
theorem forwardCheck_domains_disjoint_witness :
    (1 : ℕ) ∉ keysOf [((0 : ℕ), ({((0 : ℤ), (0 : ℤ))} : Dots))]
      ∧ Disjoint (unionDots [((0 : ℕ), ({((0 : ℤ), (0 : ℤ))} : Dots))])
          ({((1 : ℤ), (1 : ℤ))} : Dots) :=
  have h := forwardCheck_domains_disjoint
    (V := ℕ)
    ⟨[0, 1],
      [(0, [{((0 : ℤ), (0 : ℤ))}]), (1, [{((1 : ℤ), (1 : ℤ))}, {((0 : ℤ), (0 : ℤ))}])],
      fun A _ => some A, isConsistentAssignment⟩
    rfl
    [(0, {((0 : ℤ), (0 : ℤ))})] [(0, {((0 : ℤ), (0 : ℤ))})]
    [(0, [{((0 : ℤ), (0 : ℤ))}]), (1, [{((1 : ℤ), (1 : ℤ))}, {((0 : ℤ), (0 : ℤ))}])]
    [(1, [{((1 : ℤ), (1 : ℤ))}])]
    (by decide)
    ((1 : ℕ), [({((1 : ℤ), (1 : ℤ))} : Dots)]) (by decide)
  ⟨h.1, h.2 ({((1 : ℤ), (1 : ℤ))} : Dots) (by decide)⟩


theorem backTrackingSearch_succ {V α : Type} [DecidableEq V] (p : CSPProb V α)
    (fuel : Nat) (A : List (V × α)) (Dopt : Option (List (V × List α))) :
    backTrackingSearch p (fuel + 1) A Dopt
      = backTrackingStep p (backTrackingSearch p fuel) A Dopt :=
  rfl

theorem forwardCheck_state {V α : Type} [DecidableEq V] (p : CSPProb V α)
    (hreg : RegisterStruct p.register) (A : List (V × α)) (D : List (V × List α)) :
    ∃ ext, (forwardCheck p A D).2 = A ++ ext
      ∧ ∀ k ∈ keysOf ext, k ∈ keysOf D ∧ k ∉ keysOf A := by
  unfold forwardCheck
  rcases h : p.register A D with - | A2
  · exact ⟨[], by simp, by simp [keysOf]⟩
  · obtain ⟨ext, rfl, hext⟩ := hreg A D A2 h
    dsimp only
    split_ifs <;> exact ⟨ext, rfl, hext⟩

theorem forwardCheck_some {V α : Type} [DecidableEq V] (p : CSPProb V α)
    {A A2 : List (V × α)} {D D2 : List (V × List α)}
    (h : forwardCheck p A D = (some D2, A2)) :
    p.register A D = some A2
      ∧ D2 = (D.filter fun e => !decide (e.1 ∈ keysOf A2)).map
          (fun e => (e.1, e.2.filter fun x => p.consistent A2 (e.1, x)))
      ∧ ∀ e ∈ D2, ¬ e.2.isEmpty = true := by
  unfold forwardCheck at h
  rcases hreg : p.register A D with - | A2'
  · rw [hreg] at h
    simp at h
  · rw [hreg] at h
    dsimp only at h
    split_ifs at h with hany
    · simp at h
    · rw [Prod.mk.injEq, Option.some.injEq] at h
      obtain ⟨h1, h2⟩ := h
      subst h2
      refine ⟨rfl, h1.symm, ?_⟩
      intro e he
      rw [List.any_eq_true] at hany
      push_neg at hany
      have := hany e (h1 ▸ he)
      simpa using this

theorem forwardCheck_fst_disj {V α : Type} [DecidableEq V] (p : CSPProb V α)
    {A : List (V × α)} {D : List (V × List α)} :
    ∀ D2, (forwardCheck p A D).1 = some D2 →
      ∀ k ∈ keysOf D2, k ∉ keysOf (forwardCheck p A D).2 := by
  intro D2 h1 k hk
  have hfc : forwardCheck p A D = (some D2, (forwardCheck p A D).2) := by
    rw [← h1]
  obtain ⟨-, hD2, -⟩ := forwardCheck_some p hfc
  rw [hD2] at hk
  unfold keysOf at hk
  rw [List.map_map] at hk
  obtain ⟨e, he, hek⟩ := List.mem_map.mp hk
  have hfil := List.mem_filter.mp he
  have h3 := hfil.2
  simp only [Bool.not_eq_true', decide_eq_false_iff_not] at h3
  rw [← hek]
  exact h3

theorem pickMinEntry_mem {V α : Type} :
    ∀ (l : List (V × List α)) (e : V × List α), pickMinEntry l = some e → e ∈ l := by
  intro l
  induction l with
  | nil =>
    intro e h
    simp [pickMinEntry] at h
  | cons a rest ih =>
    intro e h
    rw [pickMinEntry] at h
    rcases hr : pickMinEntry rest with - | b
    · rw [hr] at h
      rw [Option.some.injEq] at h
      exact h ▸ List.mem_cons_self _ _
    · rw [hr] at h
      dsimp only at h
      split_ifs at h
      · rw [Option.some.injEq] at h
        exact List.mem_cons_of_mem _ (h ▸ ih b hr)
      · rw [Option.some.injEq] at h
        exact h ▸ List.mem_cons_self _ _

theorem selectUnassignedVariable_mem {V α : Type} [DecidableEq V] {A : List (V × α)}
    {D : List (V × List α)} {var : V} (h : selectUnassignedVariable A D = some var) :
    var ∈ keysOf D ∧ var ∉ keysOf A := by
  unfold selectUnassignedVariable at h
  rcases hp : pickMinEntry (D.filter fun e => !decide (e.1 ∈ keysOf A)) with - | e
  · rw [hp] at h
    simp at h
  · rw [hp] at h
    rw [Option.map_eq_some'] at h
    obtain ⟨e', he', hek⟩ := h
    rw [Option.some.injEq] at he'
    subst he'
    have hmem := pickMinEntry_mem _ _ hp
    have hfil := List.mem_filter.mp hmem
    have h2 := hfil.2
    simp only [Bool.not_eq_true', decide_eq_false_iff_not] at h2
    exact ⟨hek ▸ mem_keysOf hfil.1, hek ▸ h2⟩

theorem backTrackingSearch_state {V α : Type} [DecidableEq V] (p : CSPProb V α)
    (hreg : RegisterStruct p.register) :
    ∀ (fuel : Nat) (A : List (V × α)) (Dopt : Option (List (V × List α))),
      (∀ D, Dopt = some D → ∀ k ∈ keysOf D, k ∉ keysOf A) →
      ((backTrackingSearch p fuel A Dopt).1 = none →
          (backTrackingSearch p fuel A Dopt).2 = A)
        ∧ ∀ s, (backTrackingSearch p fuel A Dopt).1 = some s →
            (backTrackingSearch p fuel A Dopt).2 = s ∧ ∃ ext, s = A ++ ext := by
  intro fuel
  induction fuel with
  | zero =>
    intro A Dopt hdisj
    exact ⟨fun _ => rfl, fun s h => by simp [backTrackingSearch] at h⟩
  | succ fuel ih =>
    intro A Dopt hdisj
    rw [backTrackingSearch_succ]
    unfold backTrackingStep
    split_ifs with hlen
    · refine ⟨fun h => by simp at h, fun s h => ?_⟩
      rw [Option.some.injEq] at h
      subst h
      exact ⟨rfl, [], by simp⟩
    · rcases Dopt with - | D
      · exact ⟨fun _ => rfl, fun s h => by simp at h⟩
      · have hdisjD : ∀ k ∈ keysOf D, k ∉ keysOf A := hdisj D rfl
        dsimp only
        split_ifs with hDe
        · exact ⟨fun _ => rfl, fun s h => by simp at h⟩
        · rcases hsel : selectUnassignedVariable A D with - | var
          · exact ⟨fun _ => rfl, fun s h => by simp at h⟩
          · obtain ⟨hvarD, hvarA⟩ := selectUnassignedVariable_mem hsel
            have htry : ∀ vals : List α,
                ((tryVals p (backTrackingSearch p fuel) (keysOf A) var vals A D).1 = none →
                    (tryVals p (backTrackingSearch p fuel) (keysOf A) var vals A D).2 = A)
                  ∧ ∀ s,
                    (tryVals p (backTrackingSearch p fuel) (keysOf A) var vals A D).1
                        = some s →
                      (tryVals p (backTrackingSearch p fuel) (keysOf A) var vals A D).2 = s
                        ∧ ∃ ext, s = A ++ ext := by
              intro vals
              induction vals with
              | nil =>
                exact ⟨fun _ => rfl, fun s h => by simp [tryVals] at h⟩
              | cons val rest ihv =>
                simp only [tryVals]
                obtain ⟨ext1, hfc2, hext1⟩ :=
                  forwardCheck_state p hreg (A ++ [(var, val)]) D
                obtain ⟨hrecn, hrecs⟩ := ih (forwardCheck p (A ++ [(var, val)]) D).2
                  (forwardCheck p (A ++ [(var, val)]) D).1
                  (fun D2 hD2 => forwardCheck_fst_disj p D2 hD2)
                have hfresh : ∀ k ∈ keysOf ((var, val) :: ext1), k ∉ keysOf A := by
                  intro k hk
                  rw [keysOf, List.map_cons] at hk
                  rcases List.mem_cons.mp hk with rfl | hk
                  · exact hvarA
                  · exact hdisjD k (hext1 k hk).1
                split_ifs with htr
                · rcases hres : (backTrackingSearch p fuel
                      (forwardCheck p (A ++ [(var, val)]) D).2
                      (forwardCheck p (A ++ [(var, val)]) D).1).1 with - | s
                  · rw [hres] at htr
                    simp [truthy] at htr
                  · obtain ⟨h2, ext2, hext2⟩ := hrecs s hres
                    constructor
                    · intro hnone
                      simp at hnone
                    · intro s' hs'
                      rw [Option.some.injEq] at hs'
                      subst hs'
                      refine ⟨h2, (var, val) :: (ext1 ++ ext2), ?_⟩
                      rw [hext2, hfc2]
                      simp
                · rcases hres : (backTrackingSearch p fuel
                      (forwardCheck p (A ++ [(var, val)]) D).2
                      (forwardCheck p (A ++ [(var, val)]) D).1).1 with - | s
                  · have hstate := hrecn hres
                    rw [hstate, hfc2]
                    have hundo : undoKeys (keysOf A) (A ++ ((var, val) :: ext1)) = A :=
                      undoKeys_append A ((var, val) :: ext1) hfresh
                    rw [List.append_cons A (var, val) ext1] at hundo
                    rw [hundo]
                    exact ihv
                  · exfalso
                    obtain ⟨-, ext2, hext2⟩ := hrecs s hres
                    rw [hres] at htr
                    simp only [truthy, Bool.not_eq_true] at htr
                    rw [hext2, hfc2] at htr
                    simp at htr
            exact htry (domList D var)

/-- C8: in `back_tracking_search`, after a candidate value for the
selected variable fails and before the next candidate is tried, the
assignment map is restored to exactly its state at call entry: the keys
added during this call (the tentative assignment and any assignments
inferred during forward checking) are removed and entries for
pre-existing keys are left unmodified, so the remaining candidates are
tried from the entry assignments. -/
theorem backtrack_undo_restores {V α : Type} [DecidableEq V] (p : CSPProb V α)
    (hreg : RegisterStruct p.register) (fuel : Nat) (A : List (V × α))
    (D : List (V × List α)) (var : V) (val : α) (rest : List α)
    (hvar : var ∈ keysOf D) (hdisj : ∀ k ∈ keysOf D, k ∉ keysOf A)
    (hfail : truthy (backTrackingSearch p fuel
        (forwardCheck p (A ++ [(var, val)]) D).2
        (forwardCheck p (A ++ [(var, val)]) D).1).1 = false) :
    undoKeys (keysOf A) (backTrackingSearch p fuel
        (forwardCheck p (A ++ [(var, val)]) D).2
        (forwardCheck p (A ++ [(var, val)]) D).1).2 = A
      ∧ tryVals p (backTrackingSearch p fuel) (keysOf A) var (val :: rest) A D
          = tryVals p (backTrackingSearch p fuel) (keysOf A) var rest A D := by
  obtain ⟨ext1, hfc2, hext1⟩ := forwardCheck_state p hreg (A ++ [(var, val)]) D
  obtain ⟨hrecn, hrecs⟩ := backTrackingSearch_state p hreg fuel
    (forwardCheck p (A ++ [(var, val)]) D).2 (forwardCheck p (A ++ [(var, val)]) D).1
    (fun D2 hD2 => forwardCheck_fst_disj p D2 hD2)
  have hfresh : ∀ k ∈ keysOf ((var, val) :: ext1), k ∉ keysOf A := by
    intro k hk
    rw [keysOf, List.map_cons] at hk
    rcases List.mem_cons.mp hk with rfl | hk
    · exact hdisj _ hvar
    · exact hdisj k (hext1 k hk).1
  have hundo : undoKeys (keysOf A) (backTrackingSearch p fuel
      (forwardCheck p (A ++ [(var, val)]) D).2
      (forwardCheck p (A ++ [(var, val)]) D).1).2 = A := by
    rcases hres : (backTrackingSearch p fuel
        (forwardCheck p (A ++ [(var, val)]) D).2
        (forwardCheck p (A ++ [(var, val)]) D).1).1 with - | s
    · rw [hrecn hres, hfc2]
      have h := undoKeys_append A ((var, val) :: ext1) hfresh
      rw [List.append_cons A (var, val) ext1] at h
      exact h
    · exfalso
      obtain ⟨-, ext2, hext2⟩ := hrecs s hres
      rw [hres] at hfail
      simp only [truthy, Bool.not_eq_true] at hfail
      rw [hext2, hfc2] at hfail
      simp at hfail
  refine ⟨hundo, ?_⟩
  simp only [tryVals]
  rw [if_neg (by rw [hfail]; exact Bool.false_ne_true), hundo]

/-- Concrete instantiation of `backtrack_undo_restores`: with a
consistency test that always fails, the first candidate fails and the
assignment state for the next candidate equals the entry map. -/
theorem backtrack_undo_restores_witness :
    undoKeys (keysOf [((7 : ℕ), ({((9 : ℤ), (9 : ℤ))} : Dots))])
        (backTrackingSearch
          (⟨[7, 0, 99], [(0, [({((0 : ℤ), (0 : ℤ))} : Dots)])], fun A _ => some A,
            fun _ _ => false⟩ : CSPProb ℕ Dots) 3
          (forwardCheck
            (⟨[7, 0, 99], [(0, [({((0 : ℤ), (0 : ℤ))} : Dots)])], fun A _ => some A,
              fun _ _ => false⟩ : CSPProb ℕ Dots)
            ([((7 : ℕ), ({((9 : ℤ), (9 : ℤ))} : Dots))]
              ++ [((0 : ℕ), ({((0 : ℤ), (0 : ℤ))} : Dots))])
            [(0, [({((0 : ℤ), (0 : ℤ))} : Dots)])]).2
          (forwardCheck
            (⟨[7, 0, 99], [(0, [({((0 : ℤ), (0 : ℤ))} : Dots)])], fun A _ => some A,
              fun _ _ => false⟩ : CSPProb ℕ Dots)
            ([((7 : ℕ), ({((9 : ℤ), (9 : ℤ))} : Dots))]
              ++ [((0 : ℕ), ({((0 : ℤ), (0 : ℤ))} : Dots))])
            [(0, [({((0 : ℤ), (0 : ℤ))} : Dots)])]).1).2
      = [((7 : ℕ), ({((9 : ℤ), (9 : ℤ))} : Dots))] :=
  (backtrack_undo_restores
    (⟨[7, 0, 99], [(0, [({((0 : ℤ), (0 : ℤ))} : Dots)])], fun A _ => some A,
      fun _ _ => false⟩ : CSPProb ℕ Dots)
    (fun A D A2 h => ⟨[], by rw [List.append_nil]; exact (Option.some.inj h).symm,
      by simp [keysOf]⟩)
    3 [((7 : ℕ), ({((9 : ℤ), (9 : ℤ))} : Dots))] [(0, [({((0 : ℤ), (0 : ℤ))} : Dots)])]
    0 {((0 : ℤ), (0 : ℤ))} []
    (by decide) (by decide) (by decide)).1

/-- C10: on a constraint problem with no variables, `CSPSolver.__call__`
returns the empty assignment rather than `None`; consequently
`_get_solution` on a board that is not won, with no cached solution and
no released unplaced shapes, raises `NoSolutionException`, because the
adapter tests the solver's result for truthiness and the empty
assignment is falsy. -/
theorem empty_vars_no_solution (b : Board) (hv : b.unplaced = [])
    (hw : b.emptyDots ≠ ∅) :
    cspSolverCall (quadCSP b.unplaced b.emptyDots) = some []
      ∧ getSolution [] b = .error .noSolution := by
  have hdoms : extractDomains b.unplaced b.emptyDots = [] := by
    cases h : isValidEmptyDots b.emptyDots <;> simp [extractDomains, h, hv]
  have hcall : cspSolverCall (quadCSP b.unplaced b.emptyDots) = some [] := by
    unfold cspSolverCall quadCSP
    dsimp only
    rw [hdoms, hv]
    simp [backTrackingSearch, backTrackingStep]
  refine ⟨hcall, ?_⟩
  unfold getSolution
  rw [if_neg (by simp [Board.isWon, hw])]
  rw [if_pos (by simp [isNewSolutionNeeded])]
  rw [hcall]
  rfl

/-- Concrete instantiation of `empty_vars_no_solution` on a board with
one empty cell and no unplaced shapes. -/
theorem empty_vars_no_solution_witness :
    cspSolverCall (quadCSP (Board.mk [] [] [] {((0 : ℤ), (0 : ℤ))}).unplaced
        (Board.mk [] [] [] {((0 : ℤ), (0 : ℤ))}).emptyDots) = some []
      ∧ getSolution [] (Board.mk [] [] [] {((0 : ℤ), (0 : ℤ))}) = .error .noSolution :=
  empty_vars_no_solution (Board.mk [] [] [] {((0 : ℤ), (0 : ℤ))}) rfl (by decide)

/-- C4: when the global feasibility check rejects the current empty
cells, `_extract_domains` produces a domains map containing no candidate
cell set for any variable (it is empty), and the subsequent solver
invocation on a nonempty variable set returns the no-solution signal
without exploring any candidate. -/
theorem infeasible_empty_no_domains (vars : List DotsSet) (emptyDots : Finset Cell)
    (hinv : isValidEmptyDots emptyDots = none) :
    extractDomains vars emptyDots = []
      ∧ (vars ≠ [] → cspSolverCall (quadCSP vars emptyDots) = none) := by
  have hdoms : extractDomains vars emptyDots = [] := by
    unfold extractDomains
    rw [hinv]
  refine ⟨hdoms, fun hvne => ?_⟩
  unfold cspSolverCall quadCSP
  dsimp only
  rw [hdoms]
  have hlen : ¬ 0 = vars.length := by
    intro h
    exact hvne (List.eq_nil_of_length_eq_zero h.symm)
  simp [backTrackingSearch, backTrackingStep, hlen]

/-- Concrete instantiation of `infeasible_empty_no_domains`: a single
empty cell admits no decomposition under the divisibility rule, so the
domains map is empty and the solver returns `None`. -/
theorem infeasible_empty_no_domains_witness :
    extractDomains [exDot] {((0 : ℤ), (0 : ℤ))} = []
      ∧ cspSolverCall (quadCSP [exDot] {((0 : ℤ), (0 : ℤ))}) = none :=
  ⟨(infeasible_empty_no_domains [exDot] {((0 : ℤ), (0 : ℤ))} (by decide)).1,
    (infeasible_empty_no_domains [exDot] {((0 : ℤ), (0 : ℤ))} (by decide)).2 (by simp)⟩

/-- C9 counterexample: starting from a board with one five-cell shape
and five empty cells and no cache, the first `solve()` finds and
commits a full solution, leaving the board won; the immediately
following `solve()` with no intervening board change then raises
`StateException` ("The game is already solved!") instead of reusing the
cache and committing identical placements. -/
theorem solve_twice_state_error :
    ∃ pr : List (DotsSet × Dots) × List (DotsSet × Dots),
      getSolution [] exBoard = .ok pr
        ∧ getSolution pr.2 (commitSolve exBoard pr.1) = .error .stateError := by
  refine ⟨([(exLine5, exEmpty5)], [(exLine5, exEmpty5)]), ?_, ?_⟩ <;> decide

/-- C9 (amended): after a full solution is cached (nonempty cache), on a
board that is not yet won `_get_solution` reuses the cache without
re-searching exactly when every currently-unplaced shape's cached cell
set still lies entirely within the current empty cells, and the reused
result is the cached placement of each unplaced shape; a second
consecutive `solve()` whose first call covered the whole board instead
raises `StateException` (see `solve_twice_state_error`). -/
theorem cache_reuse_iff (cache : List (DotsSet × Dots)) (b : Board)
    (hcache : cache ≠ []) (hw : b.emptyDots ≠ ∅) :
    (isNewSolutionNeeded cache b.unplaced b.emptyDots = false
        ↔ ∀ shape ∈ b.unplaced, alookupD cache shape ∅ ⊆ b.emptyDots)
      ∧ (isNewSolutionNeeded cache b.unplaced b.emptyDots = false →
          getSolution cache b = .ok (adaptSolution cache b.unplaced, cache)) := by
  constructor
  · unfold isNewSolutionNeeded
    rw [if_pos (by simp [List.isEmpty_iff, hcache])]
    rw [List.any_eq_false]
    simp [isOnEmptyDots]
  · intro hno
    unfold getSolution
    rw [if_neg (by simp [Board.isWon, hw]), if_neg (by simp [hno])]

/-- Concrete instantiation of `cache_reuse_iff`: with the cached
placement inside the empty cells, the adapter reuses the cache. -/
theorem cache_reuse_iff_witness :
    getSolution [(exLine5, exEmpty5)] exBoard
      = .ok (adaptSolution [(exLine5, exEmpty5)] exBoard.unplaced, [(exLine5, exEmpty5)]) :=
  (cache_reuse_iff [(exLine5, exEmpty5)] exBoard (by simp) (by decide)).2 (by decide)

theorem domList_of_mem {V α : Type} [DecidableEq V] :
    ∀ {D : List (V × List α)}, (keysOf D).Nodup →
      ∀ {e : V × List α}, e ∈ D → domList D e.1 = e.2 := by
  intro D
  induction D with
  | nil =>
    intro _ e he
    simp at he
  | cons a rest ih =>
    intro hnd e he
    rw [keysOf, List.map_cons, List.nodup_cons] at hnd
    rcases List.mem_cons.mp he with rfl | he'
    · unfold domList alookupD
      rw [List.find?_cons_of_pos _ (by simp)]
    · have hne : ¬ a.1 = e.1 := by
        intro h
        exact hnd.1 (h ▸ mem_keysOf he')
      unfold domList alookupD
      rw [List.find?_cons_of_neg _ (by simpa using hne)]
      exact ih hnd.2 he'

theorem findSmallVar_some {V : Type} [DecidableEq V] {assignedKeys foundKeys : List V}
    {D : List (V × List Dots)} {c : Dots} {v : V}
    (h : findSmallVar assignedKeys foundKeys D c = some v) :
    ∃ e ∈ D, e.1 = v ∧ v ∉ assignedKeys ∧ v ∉ foundKeys ∧ c ∈ e.2 := by
  unfold findSmallVar at h
  rw [Option.map_eq_some'] at h
  obtain ⟨e, he, hev⟩ := h
  have hmem := List.mem_of_find?_eq_some he
  have hpred := List.find?_some he
  have hfil := List.mem_filter.mp hmem
  have h2 := hfil.2
  simp only [Bool.and_eq_true, Bool.not_eq_true', decide_eq_false_iff_not] at h2
  rw [decide_eq_true_eq] at hpred
  exact ⟨e, hfil.1, hev, hev ▸ h2.1, hev ▸ h2.2, hpred⟩

theorem greedyMatch_length_le {V : Type} [DecidableEq V] (assignedKeys : List V)
    (D : List (V × List Dots)) :
    ∀ (smalls : List (Finset Cell)) (found : List (V × Dots)),
      (greedyMatch assignedKeys D smalls found).length ≤ found.length + smalls.length := by
  intro smalls
  induction smalls with
  | nil =>
    intro found
    simp [greedyMatch]
  | cons c rest ih =>
    intro found
    rw [greedyMatch]
    rcases findSmallVar assignedKeys (keysOf found) D c with - | v
    · have := ih found
      simp only [List.length_cons]
      omega
    · have := ih (found ++ [(v, c)])
      simp only [List.length_append, List.length_cons, List.length_nil] at this ⊢
      omega

theorem greedyMatch_spec {V : Type} [DecidableEq V] (assignedKeys : List V)
    (D : List (V × List Dots)) (hD : (keysOf D).Nodup) :
    ∀ (smalls : List (Finset Cell)) (found : List (V × Dots)),
      (keysOf found).Nodup →
      (∀ e ∈ found, e.1 ∈ keysOf D ∧ e.1 ∉ assignedKeys ∧ e.2 ∈ domList D e.1) →
      (greedyMatch assignedKeys D smalls found).length = found.length + smalls.length →
      ∃ pairs, greedyMatch assignedKeys D smalls found = found ++ pairs
        ∧ pairs.map Prod.snd = smalls
        ∧ (keysOf (found ++ pairs)).Nodup
        ∧ ∀ e ∈ pairs, e.1 ∈ keysOf D ∧ e.1 ∉ assignedKeys ∧ e.2 ∈ domList D e.1 := by
  intro smalls
  induction smalls with
  | nil =>
    intro found hnd hinv _
    exact ⟨[], by simp [greedyMatch], rfl, by simpa using hnd, by simp⟩
  | cons c rest ih =>
    intro found hnd hinv hlen
    rw [greedyMatch] at hlen ⊢
    rcases hf : findSmallVar assignedKeys (keysOf found) D c with - | v
    · exfalso
      rw [hf] at hlen
      have := greedyMatch_length_le assignedKeys D rest found
      rw [hlen] at this
      simp only [List.length_cons] at this
      omega
    · rw [hf] at hlen
      obtain ⟨e, heD, hev, hvA, hvF, hce⟩ := findSmallVar_some hf
      have hdl : domList D v = e.2 := hev ▸ domList_of_mem hD heD
      have hnd' : (keysOf (found ++ [(v, c)])).Nodup := by
        rw [keysOf_append]
        rw [List.nodup_append]
        refine ⟨hnd, by simp [keysOf], ?_⟩
        intro k hk
        simp only [keysOf, List.map_cons, List.map_nil, List.mem_singleton]
        intro hkv
        subst hkv
        exact hvF hk
      have hinv' : ∀ e' ∈ found ++ [(v, c)],
          e'.1 ∈ keysOf D ∧ e'.1 ∉ assignedKeys ∧ e'.2 ∈ domList D e'.1 := by
        intro e' he'
        rcases List.mem_append.mp he' with he' | he'
        · exact hinv e' he'
        · rcases List.mem_singleton.mp he' with rfl
          exact ⟨hev ▸ mem_keysOf heD, hvA, by rw [hdl]; exact hce⟩
      have hlen' : (greedyMatch assignedKeys D rest (found ++ [(v, c)])).length
          = (found ++ [(v, c)]).length + rest.length := by
        simp only [List.length_append, List.length_cons, List.length_nil] at hlen ⊢
        omega
      obtain ⟨pairs, hgm, hsnd, hnd2, hinv2⟩ := ih (found ++ [(v, c)]) hnd' hinv' hlen'
      dsimp only
      refine ⟨(v, c) :: pairs, by rw [hgm]; simp, by simp [hsnd], ?_, ?_⟩
      · have heq : found ++ (v, c) :: pairs = (found ++ [(v, c)]) ++ pairs := by
          simp
        rw [heq]
        simpa using hnd2
      · intro e' he'
        rcases List.mem_cons.mp he' with rfl | he'
        · exact ⟨hev ▸ mem_keysOf heD, hvA, by rw [hdl]; exact hce⟩
        · exact hinv2 e' he'

/-- C3: `register_current_assignments` returns True only if every small
(at most five cells) 4-connected component of the remaining empty cells
is matched, in scan order, to a distinct still-unassigned variable
whose current domain contains exactly that component; the matched
assignments are appended to the assignment map and their cells are
committed.  If some small component matches no remaining variable, or
two distinct small components can each only be matched by one and the
same variable, it returns False. -/
theorem register_small_components {V : Type} [DecidableEq V] (emptyDots : Finset Cell)
    (A : List (V × Dots)) (D : List (V × List Dots)) (hD : (keysOf D).Nodup) :
    (∀ A2, registerCurrentAssignments emptyDots A D = some A2 →
        ∃ smalls ext, isValidEmptyDots (emptyDots \ unionDots A) = some smalls
          ∧ A2 = A ++ ext
          ∧ ext.map Prod.snd = smalls
          ∧ (keysOf ext).Nodup
          ∧ (∀ e ∈ ext, e.1 ∈ keysOf D ∧ e.1 ∉ keysOf A ∧ e.2 ∈ domList D e.1)
          ∧ unionDots A2 = unionDots A ∪ unionDots ext)
      ∧ (∀ smalls, isValidEmptyDots (emptyDots \ unionDots A) = some smalls →
          (∃ c ∈ smalls, ∀ v, v ∈ keysOf D → v ∉ keysOf A → c ∉ domList D v) →
          registerCurrentAssignments emptyDots A D = none)
      ∧ ∀ smalls, isValidEmptyDots (emptyDots \ unionDots A) = some smalls →
          ∀ c1 ∈ smalls, ∀ c2 ∈ smalls, ∀ x : V, c1 ≠ c2 →
            (∀ v, v ∈ keysOf D → v ∉ keysOf A → c1 ∈ domList D v → v = x) →
            (∀ v, v ∈ keysOf D → v ∉ keysOf A → c2 ∈ domList D v → v = x) →
            registerCurrentAssignments emptyDots A D = none := by
  have honly : ∀ A2, registerCurrentAssignments emptyDots A D = some A2 →
      ∃ smalls ext, isValidEmptyDots (emptyDots \ unionDots A) = some smalls
        ∧ A2 = A ++ ext
        ∧ ext.map Prod.snd = smalls
        ∧ (keysOf ext).Nodup
        ∧ (∀ e ∈ ext, e.1 ∈ keysOf D ∧ e.1 ∉ keysOf A ∧ e.2 ∈ domList D e.1)
        ∧ unionDots A2 = unionDots A ∪ unionDots ext := by
    intro A2 h
    unfold registerCurrentAssignments at h
    rcases hval : isValidEmptyDots (emptyDots \ unionDots A) with - | smalls
    · rw [hval] at h
      simp at h
    · rw [hval] at h
      dsimp only at h
      unfold isSmallEmptyDotsInDomain at h
      dsimp only at h
      split_ifs at h with hse hlen
      · rw [Option.some.injEq] at h
        subst h
        rw [List.isEmpty_iff] at hse
        subst hse
        exact ⟨[], [], rfl, by simp, rfl, by simp [keysOf], by simp,
          by simp [unionDots]⟩
      · rw [Option.some.injEq] at h
        subst h
        obtain ⟨pairs, hgm, hsnd, hnd2, hinv2⟩ :=
          greedyMatch_spec (keysOf A) D hD smalls [] (by simp [keysOf]) (by simp)
            (by simpa using hlen)
        rw [List.nil_append] at hgm
        exact ⟨smalls, pairs, rfl, by rw [hgm], hsnd, by simpa [keysOf] using hnd2,
          hinv2, by rw [hgm]; exact unionDots_append A _⟩
  refine ⟨honly, ?_, ?_⟩
  · intro smalls hval hmiss
    rcases hreg : registerCurrentAssignments emptyDots A D with - | A2
    · rfl
    · exfalso
      obtain ⟨smalls', ext, hval', -, hsnd, -, hinv, -⟩ := honly A2 hreg
      rw [hval] at hval'
      rw [Option.some.injEq] at hval'
      subst hval'
      obtain ⟨c, hc, hcu⟩ := hmiss
      rw [← hsnd] at hc
      obtain ⟨e, he, hec⟩ := List.mem_map.mp hc
      obtain ⟨h1D, h1A, h1dom⟩ := hinv e he
      exact hcu e.1 h1D h1A (hec ▸ h1dom)
  · intro smalls hval c1 hc1 c2 hc2 x hne hreq1 hreq2
    rcases hreg : registerCurrentAssignments emptyDots A D with - | A2
    · rfl
    · exfalso
      obtain ⟨smalls', ext, hval', -, hsnd, hndk, hinv, -⟩ := honly A2 hreg
      rw [hval] at hval'
      rw [Option.some.injEq] at hval'
      subst hval'
      rw [← hsnd] at hc1 hc2
      obtain ⟨e1, he1, he1c⟩ := List.mem_map.mp hc1
      obtain ⟨e2, he2, he2c⟩ := List.mem_map.mp hc2
      obtain ⟨h1D, h1A, h1dom⟩ := hinv e1 he1
      obtain ⟨h2D, h2A, h2dom⟩ := hinv e2 he2
      have hx1 : e1.1 = x := hreq1 e1.1 h1D h1A (he1c ▸ h1dom)
      have hx2 : e2.1 = x := hreq2 e2.1 h2D h2A (he2c ▸ h2dom)
      have he12 : e1 ≠ e2 := by
        intro h
        exact hne (he1c ▸ he2c ▸ congrArg Prod.snd h)
      have hmap : (ext.map Prod.fst).Nodup := hndk
      exact he12 (List.inj_on_of_nodup_map hmap he1 he2 (by rw [hx1, hx2]))

/-- Concrete instantiation of `register_small_components`: on a board
whose five empty cells form one small component, registration with no
prior assignments infers the five-cell shape's placement. -/
theorem register_small_components_witness :
    ∃ smalls ext,
      isValidEmptyDots (exEmpty5 \ unionDots ([] : List (DotsSet × Dots))) = some smalls
        ∧ ([(exLine5, exEmpty5)] : List (DotsSet × Dots)) = [] ++ ext
        ∧ ext.map Prod.snd = smalls
        ∧ (keysOf ext).Nodup
        ∧ (∀ e ∈ ext, e.1 ∈ keysOf [(exLine5, [exEmpty5])] ∧ e.1 ∉ keysOf ([] : List (DotsSet × Dots))
            ∧ e.2 ∈ domList [(exLine5, [exEmpty5])] e.1)
        ∧ unionDots [(exLine5, exEmpty5)]
            = unionDots ([] : List (DotsSet × Dots)) ∪ unionDots ext :=
  (register_small_components exEmpty5 [] [(exLine5, [exEmpty5])] (by simp [keysOf])).1
    [(exLine5, exEmpty5)] (by decide)

theorem alookupD_of_mem {V β : Type} [DecidableEq V] :
    ∀ {A : List (V × β)}, (keysOf A).Nodup →
      ∀ {e : V × β} (d : β), e ∈ A → alookupD A e.1 d = e.2 := by
  intro A
  induction A with
  | nil =>
    intro _ e d he
    simp at he
  | cons a rest ih =>
    intro hnd e d he
    rw [keysOf, List.map_cons, List.nodup_cons] at hnd
    rcases List.mem_cons.mp he with rfl | he'
    · unfold alookupD
      rw [List.find?_cons_of_pos _ (by simp)]
    · have hne : ¬ a.1 = e.1 := by
        intro h
        exact hnd.1 (h ▸ mem_keysOf he')
      unfold alookupD
      rw [List.find?_cons_of_neg _ (by simpa using hne)]
      exact ih hnd.2 d he'

theorem domList_mem_of_key {V α : Type} [DecidableEq V] :
    ∀ {D : List (V × List α)} {v : V}, v ∈ keysOf D → (v, domList D v) ∈ D := by
  intro D
  induction D with
  | nil =>
    intro v hv
    simp [keysOf] at hv
  | cons a rest ih =>
    intro v hv
    by_cases hav : a.1 = v
    · have : (v, a.2) = a := by
        rw [← hav]
      unfold domList alookupD
      rw [List.find?_cons_of_pos _ (by simpa using hav)]
      exact this ▸ List.mem_cons_self _ _
    · rw [keysOf, List.map_cons, List.mem_cons] at hv
      rcases hv with rfl | hv
      · exact absurd rfl hav
      · unfold domList alookupD
        rw [List.find?_cons_of_neg _ (by simpa using hav)]
        exact List.mem_cons_of_mem _ (ih hv)

theorem pickMinEntry_isSome {V α : Type} :
    ∀ {l : List (V × List α)}, l ≠ [] → ∃ e, pickMinEntry l = some e := by
  intro l
  induction l with
  | nil =>
    intro h
    exact absurd rfl h
  | cons a rest ih =>
    intro _
    rw [pickMinEntry]
    rcases hr : pickMinEntry rest with - | b
    · exact ⟨a, rfl⟩
    · dsimp only
      split_ifs
      · exact ⟨b, rfl⟩
      · exact ⟨a, rfl⟩

theorem selectUnassignedVariable_isSome {V α : Type} [DecidableEq V] {A : List (V × α)}
    {D : List (V × List α)} (hne : D ≠ []) (hdisj : ∀ k ∈ keysOf D, k ∉ keysOf A) :
    ∃ var, selectUnassignedVariable A D = some var := by
  unfold selectUnassignedVariable
  have hfil : D.filter (fun e => !decide (e.1 ∈ keysOf A)) = D := by
    rw [List.filter_eq_self]
    intro e he
    simpa using hdisj e.1 (mem_keysOf he)
  rw [hfil]
  obtain ⟨e, he⟩ := pickMinEntry_isSome hne
  exact ⟨e.1, by rw [he]; rfl⟩

theorem length_filter_lt {α : Type} {p : α → Bool} :
    ∀ {l : List α} {e : α}, e ∈ l → p e = false → (l.filter p).length < l.length := by
  intro l
  induction l with
  | nil =>
    intro e he
    simp at he
  | cons a rest ih =>
    intro e he hpe
    rcases List.mem_cons.mp he with rfl | he'
    · rw [List.filter_cons_of_neg (by simp [hpe])]
      have := List.length_filter_le p rest
      simp only [List.length_cons]
      omega
    · rcases ha : p a with - | -
      · rw [List.filter_cons_of_neg (by simp [ha])]
        have := ih he' hpe
        simp only [List.length_cons]
        omega
      · rw [List.filter_cons_of_pos (by simp [ha])]
        have := ih he' hpe
        simp only [List.length_cons]
        omega

theorem truthy_some {V α : Type} {o : Option (List (V × α))}
    (h : truthy o = true) : ∃ s, o = some s ∧ s ≠ [] := by
  rcases o with - | s
  · simp [truthy] at h
  · refine ⟨s, rfl, ?_⟩
    simp only [truthy, Bool.not_eq_true'] at h
    intro hnil
    subst hnil
    simp at h

theorem registerSound_struct {V : Type}
    {r : List (V × Dots) → List (V × List Dots) → Option (List (V × Dots))}
    (h : RegisterSound r) : RegisterStruct r := by
  intro A D A2 hr
  obtain ⟨ext, rfl, -, hinv, -⟩ := h A D A2 hr
  refine ⟨ext, rfl, ?_⟩
  intro k hk
  obtain ⟨e, he, hek⟩ := List.mem_map.mp hk
  obtain ⟨h1, h2, -⟩ := hinv e he
  exact ⟨hek ▸ h1, hek ▸ h2⟩

theorem forwardCheck_eq_some {V α : Type} [DecidableEq V] (p : CSPProb V α)
    {A A2 : List (V × α)} {D : List (V × List α)} (hreg : p.register A D = some A2)
    (hne : ∀ e ∈ D.filter fun e => !decide (e.1 ∈ keysOf A2),
        (e.2.filter fun x => p.consistent A2 (e.1, x)) ≠ []) :
    forwardCheck p A D
      = (some ((D.filter fun e => !decide (e.1 ∈ keysOf A2)).map
          fun e => (e.1, e.2.filter fun x => p.consistent A2 (e.1, x))), A2) := by
  unfold forwardCheck
  rw [hreg]
  dsimp only
  rw [if_neg ?hcond]
  case hcond =>
    rw [List.any_eq_true]
    rintro ⟨e2, he2, hemp⟩
    obtain ⟨e, he, rfl⟩ := List.mem_map.mp he2
    rw [List.isEmpty_iff] at hemp
    exact hne e he hemp

theorem keysOf_filter_map {V α β : Type} (D : List (V × α)) (pr : V × α → Bool)
    (f : V × α → β) :
    keysOf ((D.filter pr).map fun e => (e.1, f e)) = keysOf (D.filter pr) := by
  unfold keysOf
  rw [List.map_map]
  rfl

theorem sinv_append_val {V : Type} [DecidableEq V] {p : CSPProb V Dots}
    {A : List (V × Dots)} {D : List (V × List Dots)} {var : V} {val : Dots}
    (hinv : SInv p.doms A (some D)) (hvarD : var ∈ keysOf D) (hvarA : var ∉ keysOf A)
    (hval : val ∈ domList D var) :
    PDisj (A ++ [(var, val)]) ∧ (keysOf (A ++ [(var, val)])).Nodup
      ∧ keysOf (A ++ [(var, val)]) ⊆ keysOf p.doms
      ∧ ∀ e ∈ A ++ [(var, val)], e.2 ∈ domList p.doms e.1 := by
  obtain ⟨hPD, hndA, hsubA, hvals, hdom⟩ := hinv
  obtain ⟨hndD, hsubD, hdisjD, hDvals⟩ := hdom D rfl
  obtain ⟨hvdom, hvdisj⟩ := hDvals (var, domList D var) (domList_mem_of_key hvarD) val hval
  refine ⟨?_, ?_, ?_, ?_⟩
  · rw [PDisj, List.pairwise_append]
    refine ⟨hPD, by simp [PDisj], ?_⟩
    intro a ha b hb
    rcases List.mem_singleton.mp hb with rfl
    exact disjoint_unionDots.mp hvdisj.symm a ha
  · rw [keysOf_append, List.nodup_append]
    refine ⟨hndA, by simp [keysOf], ?_⟩
    intro k hk
    simp only [keysOf, List.map_cons, List.map_nil, List.mem_singleton]
    intro hkv
    subst hkv
    exact hvarA hk
  · rw [keysOf_append]
    intro k hk
    rcases List.mem_append.mp hk with hk | hk
    · exact hsubA hk
    · simp only [keysOf, List.map_cons, List.map_nil, List.mem_singleton] at hk
      subst hk
      exact hsubD hvarD
  · intro e he
    rcases List.mem_append.mp he with he | he
    · exact hvals e he
    · rcases List.mem_singleton.mp he with rfl
      exact hvdom

theorem sinv_forwardCheck {V : Type} [DecidableEq V] (p : CSPProb V Dots)
    (hcons : p.consistent = isConsistentAssignment) (hrs : RegisterSound p.register)
    {A : List (V × Dots)} {D : List (V × List Dots)} {var : V} {val : Dots}
    (hinv : SInv p.doms A (some D)) (hvarD : var ∈ keysOf D) (hvarA : var ∉ keysOf A)
    (hval : val ∈ domList D var) :
    SInv p.doms (forwardCheck p (A ++ [(var, val)]) D).2
      (forwardCheck p (A ++ [(var, val)]) D).1 := by
  obtain ⟨hPD1, hnd1, hsub1, hvals1⟩ := sinv_append_val hinv hvarD hvarA hval
  obtain ⟨hPD, hndA, hsubA, hvals, hdom⟩ := hinv
  obtain ⟨hndD, hsubD, hdisjD, hDvals⟩ := hdom D rfl
  rcases hreg : p.register (A ++ [(var, val)]) D with - | A2
  · have hfc : forwardCheck p (A ++ [(var, val)]) D = (none, A ++ [(var, val)]) := by
      unfold forwardCheck
      rw [hreg]
    rw [hfc]
    exact ⟨hPD1, hnd1, hsub1, hvals1, fun D' h => by simp at h⟩
  · obtain ⟨ext, hA2, hndext, hextinv, hPDpres⟩ := hrs _ _ _ hreg
    have hextfresh : ∀ k ∈ keysOf ext, k ∈ keysOf D ∧ k ∉ keysOf (A ++ [(var, val)]) := by
      intro k hk
      obtain ⟨e, he, hek⟩ := List.mem_map.mp hk
      obtain ⟨h1, h2, -⟩ := hextinv e he
      exact ⟨hek ▸ h1, hek ▸ h2⟩
    have hnd2 : (keysOf A2).Nodup := by
      rw [hA2, keysOf_append, List.nodup_append]
      exact ⟨hnd1, hndext, fun k hk1 hk2 => (hextfresh k hk2).2 hk1⟩
    have hsub2 : keysOf A2 ⊆ keysOf p.doms := by
      rw [hA2, keysOf_append]
      intro k hk
      rcases List.mem_append.mp hk with hk | hk
      · exact hsub1 hk
      · exact hsubD (hextfresh k hk).1
    have hPD2 : PDisj A2 := hPDpres hPD1
    have hvals2 : ∀ e ∈ A2, e.2 ∈ domList p.doms e.1 := by
      rw [hA2]
      intro e he
      rcases List.mem_append.mp he with he | he
      · exact hvals1 e he
      · obtain ⟨-, -, dl, hdl, hedl⟩ := hextinv e he
        exact (hDvals (e.1, dl) hdl e.2 hedl).1
    unfold forwardCheck
    rw [hreg]
    dsimp only
    split_ifs with hany
    · exact ⟨hPD2, hnd2, hsub2, hvals2, fun D' h => by simp at h⟩
    · refine ⟨hPD2, hnd2, hsub2, hvals2, ?_⟩
      intro D' hD'
      rw [Option.some.injEq] at hD'
      subst hD'
      refine ⟨?_, ?_, ?_, ?_⟩
      · rw [keysOf_filter_map]
        exact List.Nodup.sublist ((List.filter_sublist _).map Prod.fst) hndD
      · rw [keysOf_filter_map]
        intro k hk
        obtain ⟨e, he, hek⟩ := List.mem_map.mp hk
        exact hsubD (hek ▸ mem_keysOf (List.mem_filter.mp he).1)
      · intro k hk
        rw [keysOf_filter_map] at hk
        obtain ⟨e, he, hek⟩ := List.mem_map.mp hk
        have h2 := (List.mem_filter.mp he).2
        simp only [Bool.not_eq_true', decide_eq_false_iff_not] at h2
        exact hek ▸ h2
      · intro e2 he2 x hx
        obtain ⟨e, he, rfl⟩ := List.mem_map.mp he2
        have heD := (List.mem_filter.mp he).1
        have hxe : x ∈ e.2 := (List.mem_filter.mp hx).1
        have hcon := (List.mem_filter.mp hx).2
        rw [hcons] at hcon
        unfold isConsistentAssignment at hcon
        rw [decide_eq_true_eq] at hcon
        exact ⟨(hDvals e heD x hxe).1, hcon.symm⟩

theorem backTrackingSearch_sound {V : Type} [DecidableEq V] (p : CSPProb V Dots)
    (hcons : p.consistent = isConsistentAssignment) (hrs : RegisterSound p.register) :
    ∀ (fuel : Nat) (A : List (V × Dots)) (Dopt : Option (List (V × List Dots))),
      SInv p.doms A Dopt →
      ∀ s, (backTrackingSearch p fuel A Dopt).1 = some s →
        s.length = p.vars.length ∧ (keysOf s).Nodup ∧ keysOf s ⊆ keysOf p.doms
          ∧ PDisj s ∧ ∀ e ∈ s, e.2 ∈ domList p.doms e.1 := by
  intro fuel
  induction fuel with
  | zero =>
    intro A Dopt _ s h
    simp [backTrackingSearch] at h
  | succ fuel ih =>
    intro A Dopt hinv s hs
    rw [backTrackingSearch_succ] at hs
    unfold backTrackingStep at hs
    split_ifs at hs with hlen
    · rw [Option.some.injEq] at hs
      subst hs
      obtain ⟨hPD, hndA, hsubA, hvals, -⟩ := hinv
      exact ⟨hlen, hndA, hsubA, hPD, hvals⟩
    · rcases Dopt with - | D
      · simp at hs
      · dsimp only at hs
        split_ifs at hs with hDe
        rcases hsel : selectUnassignedVariable A D with - | var
        · rw [hsel] at hs
          simp at hs
        · rw [hsel] at hs
          dsimp only at hs
          obtain ⟨hvarD, hvarA⟩ := selectUnassignedVariable_mem hsel
          have htry : ∀ vals, (∀ x ∈ vals, x ∈ domList D var) →
              ∀ s, (tryVals p (backTrackingSearch p fuel) (keysOf A) var vals A D).1
                  = some s →
                s.length = p.vars.length ∧ (keysOf s).Nodup
                  ∧ keysOf s ⊆ keysOf p.doms ∧ PDisj s
                  ∧ ∀ e ∈ s, e.2 ∈ domList p.doms e.1 := by
            intro vals
            induction vals with
            | nil =>
              intro _ s h
              simp [tryVals] at h
            | cons val rest ihv =>
              intro hsub s h
              simp only [tryVals] at h
              have hfcinv := sinv_forwardCheck p hcons hrs hinv hvarD hvarA
                (hsub val (List.mem_cons_self _ _))
              split_ifs at h with htr
              · exact ih _ _ hfcinv s h
              · -- failed candidate: state restored, continue on rest
                obtain ⟨hrecn, hrecs⟩ := backTrackingSearch_state p
                  (registerSound_struct hrs) fuel
                  (forwardCheck p (A ++ [(var, val)]) D).2
                  (forwardCheck p (A ++ [(var, val)]) D).1
                  (fun D2 hD2 => forwardCheck_fst_disj p D2 hD2)
                obtain ⟨ext1, hfc2, hext1⟩ := forwardCheck_state p
                  (registerSound_struct hrs) (A ++ [(var, val)]) D
                rcases hres : (backTrackingSearch p fuel
                    (forwardCheck p (A ++ [(var, val)]) D).2
                    (forwardCheck p (A ++ [(var, val)]) D).1).1 with - | s2
                · have hstate := hrecn hres
                  rw [hstate, hfc2] at h
                  have hfresh : ∀ k ∈ keysOf ((var, val) :: ext1), k ∉ keysOf A := by
                    intro k hk
                    rw [keysOf, List.map_cons] at hk
                    rcases List.mem_cons.mp hk with rfl | hk
                    · exact hvarA
                    · exact ((hinv.2.2.2.2 D rfl).2.2.1) k (hext1 k hk).1
                  have hundo : undoKeys (keysOf A) (A ++ ((var, val) :: ext1)) = A :=
                    undoKeys_append A ((var, val) :: ext1) hfresh
                  rw [List.append_cons A (var, val) ext1] at hundo
                  rw [hundo] at h
                  exact ihv (fun x hx => hsub x (List.mem_cons_of_mem _ hx)) s h
                · exfalso
                  obtain ⟨-, ext2, hext2⟩ := hrecs s2 hres
                  rw [hres] at htr
                  simp only [truthy, Bool.not_eq_true] at htr
                  rw [hext2, hfc2] at htr
                  simp at htr
          exact htry (domList D var) (fun x hx => hx) s hs

theorem agrees_append_sol {V : Type} {sol : V → Dots} {A : List (V × Dots)}
    (hag : Agrees sol A) (var : V) : Agrees sol (A ++ [(var, sol var)]) := by
  intro e he
  rcases List.mem_append.mp he with he | he
  · exact hag e he
  · rcases List.mem_singleton.mp he with rfl
    rfl

theorem disjoint_unionDots_sol {V : Type} [DecidableEq V] {sol : V → Dots} {vars : List V}
    {doms : List (V × List Dots)} (hsol : IsSolution vars doms sol)
    {A2 : List (V × Dots)} (hag : Agrees sol A2) (hsub : keysOf A2 ⊆ vars)
    {v : V} (hv : v ∈ vars) (hvA : v ∉ keysOf A2) :
    Disjoint (unionDots A2) (sol v) := by
  rw [disjoint_unionDots]
  intro f hf
  rw [hag f hf]
  refine hsol.2 f.1 (hsub (mem_keysOf hf)) v hv ?_
  intro h
  exact hvA (h ▸ mem_keysOf hf)

theorem backTrackingSearch_complete {V : Type} [DecidableEq V] (p : CSPProb V Dots)
    (hcons : p.consistent = isConsistentAssignment)
    (hrs : RegisterSound p.register)
    (hrc : RegisterComplete p.vars p.doms p.register)
    (hkv : keysOf p.doms = p.vars) (hndv : p.vars.Nodup) (hvne : p.vars ≠ [])
    (sol : V → Dots) (hsol : IsSolution p.vars p.doms sol) :
    ∀ (fuel : Nat) (A : List (V × Dots)) (D : List (V × List Dots)),
      CInv p.doms sol A D → D.length < fuel →
      ∃ s, (backTrackingSearch p fuel A (some D)).1 = some s ∧ s ≠ [] := by
  intro fuel
  induction fuel with
  | zero =>
    intro A D _ hf
    omega
  | succ fuel ih =>
    intro A D hinv hfuel
    obtain ⟨hag, hndA, hsubA, hndD, hsubD, hdisj, hcover, hDsol⟩ := hinv
    rw [backTrackingSearch_succ]
    unfold backTrackingStep
    by_cases hlen : A.length = p.vars.length
    · rw [if_pos hlen]
      refine ⟨A, rfl, ?_⟩
      intro hA
      subst hA
      simp only [List.length_nil] at hlen
      exact hvne (List.eq_nil_of_length_eq_zero hlen.symm)
    · rw [if_neg hlen]
      dsimp only
      have hDne : D ≠ [] := by
        intro hD
        subst hD
        apply hlen
        have hsub2 : p.vars.toFinset ⊆ (keysOf A).toFinset := by
          intro v hv
          rw [List.mem_toFinset] at hv ⊢
          rcases hcover v (by rw [hkv]; exact hv) with h | h
          · exact h
          · simp [keysOf] at h
        have hsub3 : (keysOf A).toFinset ⊆ p.vars.toFinset := by
          intro v hv
          rw [List.mem_toFinset] at hv ⊢
          rw [← hkv]
          exact hsubA hv
        have heq := Finset.Subset.antisymm hsub2 hsub3
        have h1 : (keysOf A).toFinset.card = (keysOf A).length :=
          List.toFinset_card_of_nodup hndA
        have h2 : p.vars.toFinset.card = p.vars.length :=
          List.toFinset_card_of_nodup hndv
        have h3 : (keysOf A).length = A.length := by
          simp [keysOf]
        rw [heq] at h2
        omega
      rw [if_neg (by simpa [List.isEmpty_iff] using hDne)]
      obtain ⟨var, hsel⟩ := selectUnassignedVariable_isSome hDne hdisj
      rw [hsel]
      dsimp only
      obtain ⟨hvarD, hvarA⟩ := selectUnassignedVariable_mem hsel
      have hvdmem : (var, domList D var) ∈ D := domList_mem_of_key hvarD
      have hsolvar : sol var ∈ domList D var := hDsol (var, domList D var) hvdmem
      have htry : ∀ vals, sol var ∈ vals →
          ∃ s, (tryVals p (backTrackingSearch p fuel) (keysOf A) var vals A D).1 = some s
            ∧ s ≠ [] := by
        intro vals
        induction vals with
        | nil =>
          intro hm
          simp at hm
        | cons val rest ihv =>
          intro hm
          simp only [tryVals]
          by_cases htr : truthy (backTrackingSearch p fuel
              (forwardCheck p (A ++ [(var, val)]) D).2
              (forwardCheck p (A ++ [(var, val)]) D).1).1 = true
          · rw [if_pos htr]
            exact truthy_some htr
          · rw [if_neg htr]
            obtain ⟨hrecn, hrecs⟩ := backTrackingSearch_state p
              (registerSound_struct hrs) fuel
              (forwardCheck p (A ++ [(var, val)]) D).2
              (forwardCheck p (A ++ [(var, val)]) D).1
              (fun D2 hD2 => forwardCheck_fst_disj p D2 hD2)
            obtain ⟨ext1, hfc2, hext1⟩ := forwardCheck_state p
              (registerSound_struct hrs) (A ++ [(var, val)]) D
            have hresn : (backTrackingSearch p fuel
                (forwardCheck p (A ++ [(var, val)]) D).2
                (forwardCheck p (A ++ [(var, val)]) D).1).1 = none := by
              rcases hres : (backTrackingSearch p fuel
                  (forwardCheck p (A ++ [(var, val)]) D).2
                  (forwardCheck p (A ++ [(var, val)]) D).1).1 with - | s2
              · rfl
              · exfalso
                obtain ⟨-, ext2, hext2⟩ := hrecs s2 hres
                apply htr
                rw [hres]
                simp only [truthy, Bool.not_eq_true']
                rw [hext2, hfc2]
                simp
            have hstate := hrecn hresn
            have hfresh : ∀ k ∈ keysOf ((var, val) :: ext1), k ∉ keysOf A := by
              intro k hk
              rw [keysOf, List.map_cons] at hk
              rcases List.mem_cons.mp hk with rfl | hk
              · exact hvarA
              · exact hdisj k (hext1 k hk).1
            have hundo : undoKeys (keysOf A) (A ++ ((var, val) :: ext1)) = A :=
              undoKeys_append A ((var, val) :: ext1) hfresh
            rw [List.append_cons A (var, val) ext1] at hundo
            rw [hstate, hfc2, hundo]
            have hvalne : val ≠ sol var := by
              intro hval
              subst hval
              apply htr
              have hag1 : Agrees sol (A ++ [(var, sol var)]) := agrees_append_sol hag var
              have hsubA1 : keysOf (A ++ [(var, sol var)]) ⊆ p.vars := by
                rw [keysOf_append]
                intro k hk
                rcases List.mem_append.mp hk with hk | hk
                · rw [← hkv]
                  exact hsubA hk
                · simp only [keysOf, List.map_cons, List.map_nil,
                    List.mem_singleton] at hk
                  subst hk
                  rw [← hkv]
                  exact hsubD hvarD
              obtain ⟨A2, hreg, hag2⟩ := hrc sol hsol (A ++ [(var, sol var)]) D hag1
                hsubA1 (fun k hk => by rw [← hkv]; exact hsubD hk)
              obtain ⟨ext, hA2, hndext, hextinv, -⟩ := hrs _ _ _ hreg
              have hsubA2 : keysOf A2 ⊆ p.vars := by
                rw [hA2, keysOf_append]
                intro k hk
                rcases List.mem_append.mp hk with hk | hk
                · exact hsubA1 hk
                · obtain ⟨e, he, hek⟩ := List.mem_map.mp hk
                  rw [← hkv]
                  exact hsubD (hek ▸ (hextinv e he).1)
              have hvarA2 : var ∈ keysOf A2 := by
                rw [hA2, keysOf_append]
                refine List.mem_append_left _ ?_
                rw [keysOf_append]
                exact List.mem_append_right _ (by simp [keysOf])
              have hsolD2 : ∀ e ∈ D.filter fun e => !decide (e.1 ∈ keysOf A2),
                  sol e.1 ∈ e.2.filter fun x => p.consistent A2 (e.1, x) := by
                intro e he
                have heD := (List.mem_filter.mp he).1
                have heA2 := (List.mem_filter.mp he).2
                simp only [Bool.not_eq_true', decide_eq_false_iff_not] at heA2
                refine List.mem_filter.mpr ⟨hDsol e heD, ?_⟩
                rw [hcons]
                unfold isConsistentAssignment
                rw [decide_eq_true_eq]
                exact disjoint_unionDots_sol hsol hag2 hsubA2
                  (by rw [← hkv]; exact hsubD (mem_keysOf heD)) heA2
              have hfc := forwardCheck_eq_some p hreg
                (fun e he => List.ne_nil_of_mem (hsolD2 e he))
              have hinv2 : CInv p.doms sol A2
                  ((D.filter fun e => !decide (e.1 ∈ keysOf A2)).map
                    fun e => (e.1, e.2.filter fun x => p.consistent A2 (e.1, x))) := by
                refine ⟨hag2, ?_, ?_, ?_, ?_, ?_, ?_, ?_⟩
                · rw [hA2, keysOf_append, List.nodup_append]
                  refine ⟨?_, hndext, ?_⟩
                  · rw [keysOf_append, List.nodup_append]
                    refine ⟨hndA, by simp [keysOf], ?_⟩
                    intro k hk
                    simp only [keysOf, List.map_cons, List.map_nil, List.mem_singleton]
                    intro hkvv
                    subst hkvv
                    exact hvarA hk
                  · intro k hk hk2
                    obtain ⟨e, he, hek⟩ := List.mem_map.mp hk2
                    exact (hextinv e he).2.1 (hek ▸ hk)
                · intro k hk
                  rw [hkv]
                  exact hsubA2 hk
                · rw [keysOf_filter_map]
                  exact List.Nodup.sublist ((List.filter_sublist _).map Prod.fst) hndD
                · rw [keysOf_filter_map]
                  intro k hk
                  obtain ⟨e, he, hek⟩ := List.mem_map.mp hk
                  exact hsubD (hek ▸ mem_keysOf (List.mem_filter.mp he).1)
                · intro k hk
                  rw [keysOf_filter_map] at hk
                  obtain ⟨e, he, hek⟩ := List.mem_map.mp hk
                  have h2 := (List.mem_filter.mp he).2
                  simp only [Bool.not_eq_true', decide_eq_false_iff_not] at h2
                  exact hek ▸ h2
                · intro v hv
                  by_cases hvA2 : v ∈ keysOf A2
                  · exact Or.inl hvA2
                  · rcases hcover v hv with h | h
                    · exfalso
                      apply hvA2
                      rw [hA2, keysOf_append]
                      refine List.mem_append_left _ ?_
                      rw [keysOf_append]
                      exact List.mem_append_left _ h
                    · refine Or.inr ?_
                      obtain ⟨e, he, hek⟩ := List.mem_map.mp h
                      rw [keysOf_filter_map]
                      refine List.mem_map.mpr ⟨e, ?_, hek⟩
                      refine List.mem_filter.mpr ⟨he, ?_⟩
                      simp only [Bool.not_eq_true', decide_eq_false_iff_not]
                      intro hc
                      exact hvA2 (hek ▸ hc)
                · intro e2 he2
                  obtain ⟨e, he, rfl⟩ := List.mem_map.mp he2
                  exact hsolD2 e he
              have hfuel2 : ((D.filter fun e => !decide (e.1 ∈ keysOf A2)).map
                  fun e => (e.1, e.2.filter fun x => p.consistent A2 (e.1, x))).length
                  < fuel := by
                rw [List.length_map]
                have hlt : ((D.filter fun e => !decide (e.1 ∈ keysOf A2))).length
                    < D.length := by
                  refine length_filter_lt hvdmem ?_
                  simp only [Bool.not_eq_true', decide_eq_false_iff_not]
                  simp [hvarA2]
                omega
              obtain ⟨s, hs, hsne⟩ := ih A2 _ hinv2 hfuel2
              rw [hfc]
              dsimp only
              rw [hs]
              simp only [truthy, Bool.not_eq_true']
              simpa using hsne
            have hm' : sol var ∈ rest := by
              rcases List.mem_cons.mp hm with h | h
              · exact absurd h.symm hvalne
              · exact h
            exact ihv hm'
      exact htry (domList D var) hsolvar

theorem keys_toFinset_eq {V : Type} [DecidableEq V] {s : List (V × Dots)} {vars : List V}
    (hnds : (keysOf s).Nodup) (hndv : vars.Nodup) (hsub : ∀ k ∈ keysOf s, k ∈ vars)
    (hlen : s.length = vars.length) : (keysOf s).toFinset = vars.toFinset := by
  apply Finset.eq_of_subset_of_card_le
  · intro k hk
    rw [List.mem_toFinset] at hk ⊢
    exact hsub k hk
  · rw [List.toFinset_card_of_nodup hndv, List.toFinset_card_of_nodup hnds]
    simp only [keysOf, List.length_map]
    omega

/-- C1: for a constraint problem implementing the CSP interface with
disjointness consistency (`is_consistent_assignment`) and an inference
procedure obeying the interface contract (`RegisterSound`,
`RegisterComplete`), `CSPSolver.__call__` returns, on a satisfiable
problem, an assignment whose key set equals the full variable set and
whose values are pairwise disjoint; on an unsatisfiable problem it
returns the explicit no-solution signal `none` rather than raising. -/
theorem csp_solver_call_correct {V : Type} [DecidableEq V] (p : CSPProb V Dots)
    (hcons : p.consistent = isConsistentAssignment)
    (hrs : RegisterSound p.register)
    (hrc : RegisterComplete p.vars p.doms p.register)
    (hkv : keysOf p.doms = p.vars) (hndv : p.vars.Nodup) :
    ((∃ sol, IsSolution p.vars p.doms sol) →
        ∃ s, cspSolverCall p = some s
          ∧ (keysOf s).toFinset = p.vars.toFinset ∧ PDisj s)
      ∧ ((¬ ∃ sol, IsSolution p.vars p.doms sol) → cspSolverCall p = none) := by
  have hnddoms : (keysOf p.doms).Nodup := by
    rw [hkv]
    exact hndv
  have hSinit : SInv p.doms [] (some p.doms) := by
    refine ⟨List.Pairwise.nil, List.nodup_nil, List.nil_subset _, by simp, ?_⟩
    intro D hD
    rw [Option.some.injEq] at hD
    subst hD
    refine ⟨hnddoms, fun k hk => hk, by simp [keysOf], ?_⟩
    intro e he x hx
    rw [domList_of_mem hnddoms he]
    exact ⟨hx, by simp [unionDots]⟩
  constructor
  · rintro ⟨sol, hsol⟩
    by_cases hv : p.vars = []
    · have hd : p.doms = [] := by
        have h := hkv
        rw [hv] at h
        exact List.map_eq_nil.mp h
      refine ⟨[], ?_, ?_, List.Pairwise.nil⟩
      · unfold cspSolverCall
        rw [hd]
        simp [backTrackingSearch, backTrackingStep, hv]
      · rw [hv]
        rfl
    · have hchk : (p.doms.any fun e => e.2.isEmpty) = false := by
        rw [List.any_eq_false]
        intro e he
        have h1 : sol e.1 ∈ domList p.doms e.1 :=
          hsol.1 e.1 (by rw [← hkv]; exact mem_keysOf he)
        rw [domList_of_mem hnddoms he] at h1
        simp only [List.isEmpty_iff]
        exact List.ne_nil_of_mem h1
      have hCinit : CInv p.doms sol [] p.doms := by
        refine ⟨by intro e he; simp at he, List.nodup_nil, List.nil_subset _,
          hnddoms, fun k hk => hk, by simp [keysOf], fun v hv => Or.inr hv, ?_⟩
        intro e he
        have h1 : sol e.1 ∈ domList p.doms e.1 :=
          hsol.1 e.1 (by rw [← hkv]; exact mem_keysOf he)
        rwa [domList_of_mem hnddoms he] at h1
      obtain ⟨s, hs, -⟩ := backTrackingSearch_complete p hcons hrs hrc hkv hndv hv sol
        hsol (p.doms.length + 1) [] p.doms hCinit (by omega)
      obtain ⟨hlen, hnds, hsubs, hPDs, -⟩ := backTrackingSearch_sound p hcons hrs
        (p.doms.length + 1) [] (some p.doms) hSinit s hs
      refine ⟨s, ?_, ?_, hPDs⟩
      · unfold cspSolverCall
        rw [if_neg (by simp [hchk])]
        exact hs
      · exact keys_toFinset_eq hnds hndv
          (fun k hk => by rw [← hkv]; exact hsubs hk) hlen
  · intro hne
    rcases hres : cspSolverCall p with - | s
    · rfl
    · exfalso
      unfold cspSolverCall at hres
      split_ifs at hres with hchk
      obtain ⟨hlen, hnds, hsubs, hPDs, hvals⟩ := backTrackingSearch_sound p hcons hrs
        (p.doms.length + 1) [] (some p.doms) hSinit s hres
      apply hne
      have hkeq : (keysOf s).toFinset = p.vars.toFinset := keys_toFinset_eq hnds hndv
        (fun k hk => by rw [← hkv]; exact hsubs hk) hlen
      have hmemk : ∀ v ∈ p.vars, ∃ e ∈ s, e.1 = v := by
        intro v hv
        have h1 : v ∈ (keysOf s).toFinset := by
          rw [hkeq]
          exact List.mem_toFinset.mpr hv
        exact List.mem_map.mp (List.mem_toFinset.mp h1)
      refine ⟨fun v => alookupD s v ∅, ?_, ?_⟩
      · intro v hv
        obtain ⟨e, he, hev⟩ := hmemk v hv
        show alookupD s v ∅ ∈ domList p.doms v
        rw [← hev, alookupD_of_mem hnds ∅ he]
        exact hvals e he
      · intro v hv w hw hvw
        obtain ⟨ev, hevm, hev⟩ := hmemk v hv
        obtain ⟨ew, hewm, hew⟩ := hmemk w hw
        show Disjoint (alookupD s v ∅) (alookupD s w ∅)
        rw [← hev, ← hew, alookupD_of_mem hnds ∅ hevm, alookupD_of_mem hnds ∅ hewm]
        have hne2 : ev ≠ ew := by
          intro h
          exact hvw (by rw [← hev, ← hew, h])
        exact List.Pairwise.forall (fun _ _ h => Disjoint.symm h) hPDs hevm hewm hne2

theorem csp_solver_call_correct_witness :
    ∃ s, cspSolverCall (⟨[0], [(0, [({((0:ℤ), (0:ℤ))} : Dots)])],
        fun A _ => some A, isConsistentAssignment⟩ : CSPProb ℕ Dots) = some s
      ∧ (keysOf s).toFinset = ([0] : List ℕ).toFinset ∧ PDisj s := by
  have hrs : RegisterSound
      (fun (A : List (ℕ × Dots)) (_ : List (ℕ × List Dots)) => some A) := by
    intro A D A2 h
    refine ⟨[], by rw [List.append_nil]; exact (Option.some.inj h).symm, List.nodup_nil,
      fun e he => absurd he (List.not_mem_nil e), fun hp => (Option.some.inj h) ▸ hp⟩
  have hrc : RegisterComplete [0] [(0, [({((0:ℤ), (0:ℤ))} : Dots)])]
      (fun (A : List (ℕ × Dots)) (_ : List (ℕ × List Dots)) => some A) :=
    fun _ _ A _ hag _ _ => ⟨A, rfl, hag⟩
  have hsol : IsSolution [0] [(0, [({((0:ℤ), (0:ℤ))} : Dots)])]
      (fun _ => ({((0:ℤ), (0:ℤ))} : Dots)) := by
    constructor
    · intro v hv
      simp only [List.mem_singleton] at hv
      subst hv
      decide
    · intro v hv w hw hvw
      simp only [List.mem_singleton] at hv hw
      exact absurd (hv.trans hw.symm) hvw
  exact (csp_solver_call_correct _ rfl hrs hrc rfl (by decide)).1 ⟨_, hsol⟩
